import Mathlib

/-!
# Tideman (ranked pairs) election: a shallow embedding of `tideman.c`

The global arrays of the C program become explicit values that are passed
through the functions:

* `preferences[MAX][MAX]` and `locked[MAX][MAX]` are total functions on
  indices (`Prefs`, `Locked`). In `record_preferences`, `add_pairs`,
  `sort_pairs`, `lock_pairs` and `makes_circle` every index is a loop counter
  below `candidate_count`, a candidate of a ballot or a candidate of a pair;
  `print_winner`, whose loops are bounded by `pair_count`, checks its indices
  against the array bounds explicitly.
* `pairs[0 .. pair_count)` is a `List pair`, so `pair_count` is its length;
  writing past the capacity of the array is a failure of `add_pairs`.
* `ranks[0 .. candidate_count)` is a `List Nat`; `vote` returns its result together
  with the array after the call.
* `Globals` collects the global variables; the functions `Globals.vote`,
  `Globals.record_preferences`, `Globals.add_pairs`, `Globals.sort_pairs`,
  `Globals.lock_pairs` and `Globals.print_winner` are the C functions as
  transformers of that state, each writing the globals its source assigns to.

C `int` values are candidate indices, pair counts and ballot counts. A count is
at most the number of ballots, which `main` holds in an `int`, and the
difference of two counts fits an `int`; signed overflow, undefined in C, does
not occur on these values, and `int` arithmetic is embedded as arithmetic on
`Int` and `Nat`.

The recursion of `makes_circle` is given a fuel argument that bounds the depth
of the C call stack; `none` means the fuel ran out.
-/

namespace Tideman

/-! ## Data model -/

/-- Max number of candidates (`#define MAX 9`). -/
def MAX : Nat := 9

/-- Each pair has a winner and a loser (`typedef struct { int winner; int loser; } pair`). -/
structure pair where
  winner : Nat
  loser : Nat
deriving DecidableEq

/-- The matrix `int preferences[MAX][MAX]`. -/
abbrev Prefs := Nat → Nat → Int

/-- The matrix `bool locked[MAX][MAX]`. -/
abbrev Locked := Nat → Nat → Bool

/-- Capacity of the array `pair pairs[MAX * (MAX - 1) / 2]`. -/
def pairsCapacity : Nat := MAX * (MAX - 1) / 2

/-- The zero-initialised global `preferences`. -/
def noPreferences : Prefs := fun _ _ => 0

/-- The cleared graph `locked` (all entries `false`). -/
def noLocked : Locked := fun _ _ => false

/-! ## record_preferences -/

/-- The statement `preferences[a][b]++`. -/
def bump (preferences : Prefs) (a b : Nat) : Prefs :=
  fun x y => if x = a ∧ y = b then preferences x y + 1 else preferences x y

/-- Update preferences given one voter's ranks: for `i` in `0 .. candidate_count` and
`j` in `i + 1 .. candidate_count`, `preferences[ranks[i]][ranks[j]]++`. -/
def record_preferences (candidate_count : Nat) (preferences : Prefs) (ranks : List Nat) : Prefs :=
  (List.range candidate_count).foldl
    (fun prefs i =>
      (List.range' (i + 1) (candidate_count - (i + 1))).foldl
        (fun prefs j => bump prefs (ranks.getD i 0) (ranks.getD j 0)) prefs)
    preferences

/-! ## add_pairs -/

/-- Body of the inner loop of `add_pairs` for indices `i`, `j`: a tie adds nothing,
otherwise the pair is written at `pairs[pair_count]` and `pair_count` is incremented.
Writing past the end of the array `pairs` is the failure `none`. -/
def add_pairs_body (preferences : Prefs) (i : Nat) (pairs : List pair) (j : Nat) :
    Option (List pair) :=
  let a := preferences i j
  let b := preferences j i
  if a = b then some pairs
  else if pairs.length < pairsCapacity then
    (if a > b then some (pairs ++ [⟨i, j⟩]) else some (pairs ++ [⟨j, i⟩]))
  else none

/-- Record pairs of candidates where one is preferred over the other. The argument
`pairs` is the array content `pairs[0 .. pair_count)` on entry. -/
def add_pairs (candidate_count : Nat) (preferences : Prefs) (pairs : List pair) :
    Option (List pair) :=
  (List.range candidate_count).foldlM
    (fun ps i =>
      (List.range' (i + 1) (candidate_count - (i + 1))).foldlM (add_pairs_body preferences i) ps)
    pairs

/-! ## sort_pairs -/

/-- The helpers `swap_int(&xs[k], &xs[k + 1])` and `swap_pair(&xs[k], &xs[k + 1])`. -/
def swapAt {α : Type} (xs : List α) (k : Nat) : List α :=
  match xs[k]?, xs[k + 1]? with
  | some x, some y => (xs.set k y).set (k + 1) x
  | _, _ => xs

/-- The first loop of `sort_pairs`: `strengths[i] = preferences[w][l] - preferences[l][w]`. -/
def strengthsOf (preferences : Prefs) (pairs : List pair) : List Int :=
  pairs.map (fun p => preferences p.winner p.loser - preferences p.loser p.winner)

/-- The variables of the bubble sort in `sort_pairs`. -/
structure SortState where
  strengths : List Int
  pairs : List pair
  swaps : Nat

/-- Body of the inner loop of the bubble sort at index `k`. -/
def bubbleStep (st : SortState) (k : Nat) : SortState :=
  if st.strengths.getD k 0 < st.strengths.getD (k + 1) 0 then
    ⟨swapAt st.strengths k, swapAt st.pairs k, st.swaps + 1⟩
  else st

/-- One iteration of the outer loop: `swaps = 0`, then `k` runs over `0 .. pair_count - 1`. -/
def bubblePass (pair_count : Nat) (strengths : List Int) (pairs : List pair) : SortState :=
  (List.range (pair_count - 1)).foldl bubbleStep ⟨strengths, pairs, 0⟩

/-- The outer loop of the bubble sort with `remaining` iterations left; it stops early
when a pass made no swap. -/
def bubbleLoop (pair_count : Nat) : Nat → List Int → List pair → List pair
  | 0, _, pairs => pairs
  | remaining + 1, strengths, pairs =>
    let st := bubblePass pair_count strengths pairs
    if st.swaps = 0 then st.pairs
    else bubbleLoop pair_count remaining st.strengths st.pairs

/-- Sort pairs in decreasing order by strength of victory. -/
def sort_pairs (preferences : Prefs) (pairs : List pair) : List pair :=
  bubbleLoop pairs.length pairs.length (strengthsOf preferences pairs) pairs

/-! ## makes_circle and lock_pairs -/

/-- The loop `for (i = 0; i < candidate_count; i++)` of `makes_circle` over the remaining
indices, with `recurse i` standing for the recursive call `makes_circle(cycle_start, i)`. -/
def circleScan (locked : Locked) (loser : Nat) (recurse : Nat → Option Bool) :
    List Nat → Option Bool
  | [] => some false
  | i :: rest =>
    if locked loser i then
      match recurse i with
      | none => none
      | some true => some true
      | some false => circleScan locked loser recurse rest
    else circleScan locked loser recurse rest

/-- Recursive function to check if entry makes a circle. The first argument bounds the
depth of the recursion; `none` means the bound was reached. -/
def makes_circle (locked : Locked) (candidate_count : Nat) (cycle_start : Nat) :
    Nat → Nat → Option Bool
  | 0, _ => none
  | fuel + 1, loser =>
    if loser = cycle_start then some true
    else circleScan locked loser (makes_circle locked candidate_count cycle_start fuel)
      (List.range candidate_count)

/-- The statement `locked[w][l] = true`. -/
def setLocked (locked : Locked) (w l : Nat) : Locked :=
  fun a b => if a = w ∧ b = l then true else locked a b

/-- Lock pairs into the candidate graph in order, without creating cycles. -/
def lock_pairs (fuel candidate_count : Nat) : Locked → List pair → Option Locked
  | locked, [] => some locked
  | locked, p :: rest =>
    match makes_circle locked candidate_count p.winner fuel p.loser with
    | none => none
    | some true => lock_pairs fuel candidate_count locked rest
    | some false => lock_pairs fuel candidate_count (setLocked locked p.winner p.loser) rest

/-! ## print_winner -/

/-- What can go wrong in `print_winner`. -/
inductive Fault where
  /-- A read outside `locked[MAX][MAX]` or outside the populated part of `candidates`. -/
  | outOfBounds
  /-- The buffer `winner` is printed without ever having been written. -/
  | uninitialised
deriving DecidableEq

/-- The inner loop of `print_winner` for candidate `i` over the remaining `j`:
`true` when no `locked[j][i]` was found. -/
def sourceScan (locked : Locked) (i : Nat) : List Nat → Except Fault Bool
  | [] => .ok true
  | j :: rest =>
    if j < MAX ∧ i < MAX then
      (if locked j i then .ok false else sourceScan locked i rest)
    else .error .outOfBounds

/-- The outer loop of `print_winner` over the remaining `i`; both loops are bounded by
`pair_count`. The result is the string copied into `winner` and printed. -/
def winnerScan (locked : Locked) (candidates : List String) (pair_count : Nat) :
    List Nat → Except Fault String
  | [] => .error .uninitialised
  | i :: rest =>
    match sourceScan locked i (List.range pair_count) with
    | .error e => .error e
    | .ok true =>
      (match candidates[i]? with
       | some name => .ok name
       | none => .error .outOfBounds)
    | .ok false => winnerScan locked candidates pair_count rest

/-- Print the winner of the election. -/
def print_winner (locked : Locked) (candidates : List String) (pair_count : Nat) :
    Except Fault String :=
  winnerScan locked candidates pair_count (List.range pair_count)

/-! ## The pipeline of `main` after the candidates are read -/

/-- The globals after `lock_pairs`. -/
structure Election where
  preferences : Prefs
  pairs : List pair
  locked : Locked

/-- The tally: `record_preferences` on each ballot, from the all-zero matrix. -/
def tally (candidate_count : Nat) (ballots : List (List Nat)) : Prefs :=
  ballots.foldl (record_preferences candidate_count) noPreferences

/-- The calls `add_pairs(); sort_pairs(); lock_pairs();` of `main`, after the ballots
were recorded, with `pair_count = 0` and `locked` cleared. -/
def run_election (fuel candidate_count : Nat) (ballots : List (List Nat)) : Option Election :=
  let preferences := tally candidate_count ballots
  match add_pairs candidate_count preferences [] with
  | none => none
  | some pairs =>
    let sorted := sort_pairs preferences pairs
    match lock_pairs fuel candidate_count noLocked sorted with
    | none => none
    | some locked => some ⟨preferences, sorted, locked⟩

/-- The whole of `main` after input: the pipeline followed by `print_winner`. -/
def run_main (fuel : Nat) (candidates : List String) (ballots : List (List Nat)) :
    Option (Except Fault String) :=
  (run_election fuel candidates.length ballots).map
    (fun e => print_winner e.locked candidates e.pairs.length)

/-! ## vote and the ballot loop of `main` -/

/-- The loop of `vote` over the remaining candidate indices `i`: the first `i` with
`strcmp(name, candidates[i]) == 0` is written to `ranks[rank]` and `true` is returned;
`false` is returned when the loop ends. -/
def voteScan (candidates : List String) (rank : Nat) (name : String) (ranks : List Nat) :
    List Nat → Bool × List Nat
  | [] => (false, ranks)
  | i :: rest =>
    if candidates[i]? = some name then (true, ranks.set rank i)
    else voteScan candidates rank name ranks rest

/-- Update ranks given a new vote: the returned pair is the result of `vote` and the
array `ranks` after the call. -/
def vote (candidates : List String) (rank : Nat) (name : String) (ranks : List Nat) :
    Bool × List Nat :=
  voteScan candidates rank name ranks (List.range candidates.length)

/-- The loop `for (j = 0; j < candidate_count; j++)` of `main` for one voter over the
remaining ranks `j`; `names[j]` is the name read for rank `j`. A `vote` that returns
false ends the program (`Invalid vote.`, exit code 3): `none`. -/
def read_ranks (candidates : List String) (names : List String) :
    List Nat → List Nat → Option (List Nat)
  | [], ranks => some ranks
  | j :: rest, ranks =>
    match vote candidates j (names.getD j "") ranks with
    | (true, ranks') => read_ranks candidates names rest ranks'
    | (false, _) => none

/-! ## The global variables as one state -/

/-- The global variables of the program: `preferences`, `locked`, `pairs[0 .. pair_count)`
and `candidates[0 .. candidate_count)`. -/
structure Globals where
  preferences : Prefs
  locked : Locked
  pairs : List pair
  candidates : List String

/-- The global `candidate_count`. -/
def Globals.candidate_count (g : Globals) : Nat := g.candidates.length

/-- The global `pair_count`. -/
def Globals.pair_count (g : Globals) : Nat := g.pairs.length

/-- The function `vote` on the globals: it reads `candidates` and writes no global. -/
def Globals.vote (g : Globals) (rank : Nat) (name : String) (ranks : List Nat) :
    (Bool × List Nat) × Globals :=
  (Tideman.vote g.candidates rank name ranks, g)

/-- The function `record_preferences` on the globals: it writes `preferences` only. -/
def Globals.record_preferences (g : Globals) (ranks : List Nat) : Globals :=
  { g with preferences := Tideman.record_preferences g.candidate_count g.preferences ranks }

/-- The function `add_pairs` on the globals: it writes `pairs` and `pair_count` only. -/
def Globals.add_pairs (g : Globals) : Option Globals :=
  (Tideman.add_pairs g.candidate_count g.preferences g.pairs).map
    (fun ps => { g with pairs := ps })

/-- The function `sort_pairs` on the globals: it writes `pairs` only. -/
def Globals.sort_pairs (g : Globals) : Globals :=
  { g with pairs := Tideman.sort_pairs g.preferences g.pairs }

/-- The function `lock_pairs` on the globals: it writes `locked` only. -/
def Globals.lock_pairs (fuel : Nat) (g : Globals) : Option Globals :=
  (Tideman.lock_pairs fuel g.candidate_count g.locked g.pairs).map
    (fun l => { g with locked := l })

/-- The function `print_winner` on the globals: it prints and writes no global. -/
def Globals.print_winner (g : Globals) : Except Fault String × Globals :=
  (Tideman.print_winner g.locked g.candidates g.pair_count, g)

/-- One iteration of the voter loop of `main`: the ranks are read into the array `ranks`
(whose content on entry is `ranks0`), then `record_preferences(ranks)` is called. -/
def Globals.ballot (g : Globals) (names : List String) (ranks0 : List Nat) : Option Globals :=
  match read_ranks g.candidates names (List.range g.candidate_count) ranks0 with
  | none => none
  | some ranks => some (g.record_preferences ranks)

/-! ## Specification-level notions -/

/-- A valid ballot over `candidate_count` candidates: a permutation of
`0 .. candidate_count - 1`. -/
def ValidBallot (candidate_count : Nat) (ranks : List Nat) : Prop :=
  List.Perm ranks (List.range candidate_count)

/-- Candidate `a` appears in the ballot at an earlier position than candidate `b`. -/
def appearsBefore (ranks : List Nat) (a b : Nat) : Bool :=
  decide (∃ q, q < ranks.length ∧ ∃ p, p < q ∧ ranks[p]? = some a ∧ ranks[q]? = some b)

/-- The candidate pairs `(ranks[i], ranks[j])` visited by the two loops of
`record_preferences`, in the order of the visits. -/
def rankPairs (candidate_count : Nat) (ranks : List Nat) : List (Nat × Nat) :=
  (List.range candidate_count).flatMap
    (fun i => (List.range' (i + 1) (candidate_count - (i + 1))).map
      (fun j => (ranks.getD i 0, ranks.getD j 0)))

/-- The index pairs `(i, j)` with `i < j < candidate_count`, in lexicographic order. -/
def lexPairs (candidate_count : Nat) : List (Nat × Nat) :=
  ((List.range candidate_count).product (List.range candidate_count)).filter
    (fun ij => decide (ij.1 < ij.2))

/-- The pair emitted for the candidates `i < j`: none for a tie, otherwise the pair whose
winner is the index with the higher count. -/
def extractPair (preferences : Prefs) (ij : Nat × Nat) : Option pair :=
  if preferences ij.1 ij.2 = preferences ij.2 ij.1 then none
  else if preferences ij.2 ij.1 < preferences ij.1 ij.2 then some ⟨ij.1, ij.2⟩
  else some ⟨ij.2, ij.1⟩

/-- The two candidates of a pair as an index pair `(smaller, larger)`. -/
def pair.indices (p : pair) : Nat × Nat := (min p.winner p.loser, max p.winner p.loser)

/-- The strength of victory of a pair: `preferences[w][l] - preferences[l][w]`. -/
def margin (preferences : Prefs) (p : pair) : Int :=
  preferences p.winner p.loser - preferences p.loser p.winner

/-- One pass of the bubble sort read as a recursion on the list: the element `c` is
carried to the right past every element whose key is not larger. -/
def carry {α : Type} (key : α → Int) : α → List α → List α
  | c, [] => [c]
  | c, b :: r => if key c < key b then b :: carry key c r else c :: carry key b r

/-- The number of swaps of the pass `carry`. -/
def carrySwaps {α : Type} (key : α → Int) : α → List α → Nat
  | _, [] => 0
  | c, b :: r => if key c < key b then carrySwaps key c r + 1 else carrySwaps key b r

/-- One pass of the bubble sort on a whole list. -/
def pass {α : Type} (key : α → Int) : List α → List α
  | [] => []
  | c :: r => carry key c r

/-- The number of swaps of `pass`. -/
def passSwaps {α : Type} (key : α → Int) : List α → Nat
  | [] => 0
  | c :: r => carrySwaps key c r

/-- Reference for the ranking: a stable sort by descending margin (insertion sort, which
puts an element in front of the first element whose margin is not larger). -/
def stableSortByMargin (preferences : Prefs) (pairs : List pair) : List pair :=
  pairs.insertionSort (fun p q => margin preferences q ≤ margin preferences p)

/-- The locked graph has an edge from `a` to `b`. -/
def Edge (locked : Locked) (a b : Nat) : Prop := locked a b = true

/-- Candidate `b` is reachable from `a` by a possibly empty path of locked edges. -/
def Reach (locked : Locked) (a b : Nat) : Prop := Relation.ReflTransGen (Edge locked) a b

/-- The locked graph has no directed cycle: no non-empty path leads from a candidate
back to itself. -/
def Acyclic (locked : Locked) : Prop := ∀ i, ¬ Relation.TransGen (Edge locked) i i

/-- The matrix is a graph over `candidate_count` candidates: every locked edge joins two
candidates below `candidate_count`. -/
def OverCandidates (locked : Locked) (candidate_count : Nat) : Prop :=
  ∀ a b, locked a b = true → a < candidate_count ∧ b < candidate_count

/-- The first index at which `name` occurs in `candidates`, and the length of
`candidates` when it does not occur. -/
def firstIndex (name : String) : List String → Nat
  | [] => 0
  | c :: rest => if c = name then 0 else firstIndex name rest + 1

/-- The ballots of scenario 1: three voters rank `A, B, C` and two rank `B, C, A`. -/
def scenarioOneBallots : List (List Nat) :=
  [[0, 1, 2], [0, 1, 2], [0, 1, 2], [1, 2, 0], [1, 2, 0]]

/-! # Theorems -/

/-! ## record_preferences -/

theorem bump_foldl_apply (L : List (Nat × Nat)) (P : Prefs) (a b : Nat) :
    (L.foldl (fun prefs xy => bump prefs xy.1 xy.2) P) a b
      = P a b + (L.countP (fun xy => decide (xy = (a, b))) : Nat) := by
  induction L generalizing P with
  | nil => simp
  | cons xy L ih =>
    rw [List.foldl_cons, ih, List.countP_cons]
    by_cases h : xy = (a, b)
    · subst h
      simp [bump]
      ring
    · have h2 : ¬ (a = xy.1 ∧ b = xy.2) := by
        rintro ⟨h1, h2⟩
        exact h (by rw [h1, h2])
      simp [bump, h, h2]

theorem record_preferences_eq_foldl (N : Nat) (P : Prefs) (ranks : List Nat) :
    record_preferences N P ranks
      = (rankPairs N ranks).foldl (fun prefs xy => bump prefs xy.1 xy.2) P := by
  unfold record_preferences rankPairs
  generalize List.range N = I
  induction I generalizing P with
  | nil => rfl
  | cons i I ih =>
    rw [List.foldl_cons, ih, List.flatMap_cons, List.foldl_append, List.foldl_map]

theorem record_preferences_apply (N : Nat) (P : Prefs) (ranks : List Nat) (a b : Nat) :
    record_preferences N P ranks a b
      = P a b + ((rankPairs N ranks).countP (fun xy => decide (xy = (a, b))) : Nat) := by
  rw [record_preferences_eq_foldl, bump_foldl_apply]

theorem countP_eq_of_nodup (L : List (Nat × Nat)) (hnd : L.Nodup) (x : Nat × Nat) :
    L.countP (fun xy => decide (xy = x)) = if x ∈ L then 1 else 0 := by
  induction L with
  | nil => simp
  | cons y L ih =>
    rw [List.nodup_cons] at hnd
    rw [List.countP_cons, ih hnd.2]
    by_cases h : y = x
    · subst h
      simp [hnd.1]
    · have h' : ¬ x = y := fun e => h e.symm
      simp [h, h']

theorem validBallot_length {N : Nat} {r : List Nat} (h : ValidBallot N r) : r.length = N := by
  have := h.length_eq
  simpa using this

theorem validBallot_nodup {N : Nat} {r : List Nat} (h : ValidBallot N r) : r.Nodup :=
  h.nodup_iff.mpr (List.nodup_range N)

theorem getD_inj_of_nodup {r : List Nat} (hnd : r.Nodup) {i j : Nat} (hi : i < r.length)
    (hj : j < r.length) (h : r.getD i 0 = r.getD j 0) : i = j := by
  rw [List.getD_eq_getElem _ _ hi, List.getD_eq_getElem _ _ hj] at h
  exact (List.Nodup.getElem_inj_iff hnd).mp h

theorem mem_rankPairs (N : Nat) (r : List Nat) (a b : Nat) :
    (a, b) ∈ rankPairs N r ↔ ∃ i j, i < j ∧ j < N ∧ r.getD i 0 = a ∧ r.getD j 0 = b := by
  unfold rankPairs
  simp only [List.mem_flatMap, List.mem_range, List.mem_map, List.mem_range'_1, Prod.mk.injEq]
  constructor
  · rintro ⟨i, hi, j, ⟨h1, h2⟩, h3, h4⟩
    exact ⟨i, j, by omega, by omega, h3, h4⟩
  · rintro ⟨i, j, h1, h2, h3, h4⟩
    exact ⟨i, by omega, j, ⟨by omega, by omega⟩, h3, h4⟩

theorem rankPairs_nodup (N : Nat) (r : List Nat) (hnd : r.Nodup) (hlen : r.length = N) :
    (rankPairs N r).Nodup := by
  unfold rankPairs
  rw [List.nodup_flatMap]
  constructor
  · intro i hi
    rw [List.mem_range] at hi
    refine List.Nodup.map_on ?_ (List.nodup_range' _ _)
    intro x hx y hy hxy
    rw [List.mem_range'_1] at hx hy
    simp only [Prod.mk.injEq, true_and] at hxy
    exact getD_inj_of_nodup hnd (by omega) (by omega) hxy
  · refine List.Pairwise.imp_of_mem ?_ (List.nodup_range N)
    intro i i' hi hi' hne
    rw [List.mem_range] at hi hi'
    simp only [Function.onFun, List.disjoint_left, List.mem_map, List.mem_range'_1]
    rintro ⟨x, y⟩ ⟨j, hj, hxy⟩ ⟨j', hj', hxy'⟩
    simp only [Prod.mk.injEq] at hxy hxy'
    exact hne (getD_inj_of_nodup hnd (by omega) (by omega) (hxy.1.trans hxy'.1.symm))

theorem appearsBefore_iff (r : List Nat) (a b : Nat) :
    appearsBefore r a b = true ↔
      ∃ i j, i < j ∧ j < r.length ∧ r.getD i 0 = a ∧ r.getD j 0 = b := by
  unfold appearsBefore
  rw [decide_eq_true_iff]
  constructor
  · rintro ⟨q, hq, p, hpq, hp, hq'⟩
    refine ⟨p, q, hpq, hq, ?_, ?_⟩
    · simp [List.getD_eq_getElem?_getD, hp]
    · simp [List.getD_eq_getElem?_getD, hq']
  · rintro ⟨i, j, hij, hj, hi', hj'⟩
    refine ⟨j, hj, i, hij, ?_, ?_⟩
    · subst hi'
      simp [List.getD_eq_getElem?_getD, List.getElem?_eq_getElem (show i < r.length by omega)]
    · subst hj'
      simp [List.getD_eq_getElem?_getD, List.getElem?_eq_getElem hj]

theorem record_preferences_valid (N : Nat) (P : Prefs) (r : List Nat) (hv : ValidBallot N r)
    (a b : Nat) :
    record_preferences N P r a b = P a b + (if appearsBefore r a b then 1 else 0) := by
  rw [record_preferences_apply,
    countP_eq_of_nodup _ (rankPairs_nodup N r (validBallot_nodup hv) (validBallot_length hv))]
  have hiff : (a, b) ∈ rankPairs N r ↔ appearsBefore r a b = true := by
    rw [mem_rankPairs, appearsBefore_iff, validBallot_length hv]
  by_cases h : appearsBefore r a b = true
  · simp [h, hiff.mpr h]
  · have h' : (a, b) ∉ rankPairs N r := fun hm => h (hiff.mp hm)
    simp [h, h']

theorem tally_from (N : Nat) (ballots : List (List Nat)) (hv : ∀ r ∈ ballots, ValidBallot N r)
    (P : Prefs) (a b : Nat) :
    (ballots.foldl (record_preferences N) P) a b
      = P a b + (ballots.countP (fun r => appearsBefore r a b) : Nat) := by
  induction ballots generalizing P with
  | nil => simp
  | cons r rest ih =>
    rw [List.foldl_cons, ih (fun x hx => hv x (List.mem_cons_of_mem _ hx)),
      record_preferences_valid N P r (hv r (List.mem_cons_self _ _)), List.countP_cons]
    by_cases h : appearsBefore r a b = true
    · simp [h]; ring
    · simp [h]

/-- C5: starting from the all-zero matrix, after `record_preferences` on each ballot of a
sequence of valid ballots, `preferences[i][j]` is, for all `i` and `j` (in particular
those in `0 .. N - 1`), the number of ballots in which `i` appears at an earlier position
than `j`; every pair of positions of a ballot is counted, not only adjacent ranks. -/
theorem record_preferences_counts (N : Nat) (ballots : List (List Nat))
    (hv : ∀ r ∈ ballots, ValidBallot N r) (i j : Nat) :
    tally N ballots i j = (ballots.countP (fun r => appearsBefore r i j) : Nat) := by
  unfold tally
  rw [tally_from N ballots hv]
  simp [noPreferences]

theorem record_preferences_counts_witness :
    (∀ r ∈ [[0, 1, 2], [1, 2, 0]], ValidBallot 3 r) ∧
      tally 3 [[0, 1, 2], [1, 2, 0]] 0 2
        = (([[0, 1, 2], [1, 2, 0]] : List (List Nat)).countP (fun r => appearsBefore r 0 2) : Nat) :=
  have hv : ∀ r ∈ [[0, 1, 2], [1, 2, 0]], ValidBallot 3 r := by
    intro r hr
    simp only [List.mem_cons, List.mem_singleton, List.not_mem_nil, or_false] at hr
    rcases hr with rfl | rfl <;> unfold ValidBallot <;> decide
  ⟨hv, record_preferences_counts 3 _ hv 0 2⟩

/-! ## add_pairs -/

theorem add_pairs_inner (prefs : Prefs) (i : Nat) (L : List Nat) (ps : List pair)
    (hcap : ps.length + (L.filterMap (fun j => extractPair prefs (i, j))).length ≤ pairsCapacity) :
    L.foldlM (add_pairs_body prefs i) ps
      = some (ps ++ L.filterMap (fun j => extractPair prefs (i, j))) := by
  induction L generalizing ps with
  | nil => simp
  | cons j L ih =>
    rw [List.foldlM_cons, List.filterMap_cons]
    rw [List.filterMap_cons] at hcap
    by_cases h1 : prefs i j = prefs j i
    · have hb : add_pairs_body prefs i ps j = some ps := by simp [add_pairs_body, h1]
      have he : extractPair prefs (i, j) = none := by simp [extractPair, h1]
      rw [he] at hcap
      rw [hb, he]
      exact ih ps hcap
    · by_cases h2 : prefs j i < prefs i j
      · have he : extractPair prefs (i, j) = some ⟨i, j⟩ := by simp [extractPair, h1, h2]
        rw [he] at hcap
        simp only [List.length_cons] at hcap
        have hb : add_pairs_body prefs i ps j = some (ps ++ [⟨i, j⟩]) := by
          have : ps.length < pairsCapacity := by omega
          simp [add_pairs_body, h1, h2, this]
        rw [hb, he]
        have := ih (ps ++ [⟨i, j⟩]) (by simp only [List.length_append, List.length_singleton]; omega)
        simpa using this
      · have he : extractPair prefs (i, j) = some ⟨j, i⟩ := by simp [extractPair, h1, h2]
        rw [he] at hcap
        simp only [List.length_cons] at hcap
        have hb : add_pairs_body prefs i ps j = some (ps ++ [⟨j, i⟩]) := by
          have : ps.length < pairsCapacity := by omega
          simp [add_pairs_body, h1, h2, this]
        rw [hb, he]
        have := ih (ps ++ [⟨j, i⟩]) (by simp only [List.length_append, List.length_singleton]; omega)
        simpa using this

theorem add_pairs_outer (prefs : Prefs) (N : Nat) (I : List Nat) (ps : List pair)
    (hcap : ps.length + (I.flatMap (fun i => (List.range' (i + 1) (N - (i + 1))).filterMap
      (fun j => extractPair prefs (i, j)))).length ≤ pairsCapacity) :
    I.foldlM (fun ps i => (List.range' (i + 1) (N - (i + 1))).foldlM (add_pairs_body prefs i) ps) ps
      = some (ps ++ I.flatMap (fun i => (List.range' (i + 1) (N - (i + 1))).filterMap
          (fun j => extractPair prefs (i, j)))) := by
  induction I generalizing ps with
  | nil => simp
  | cons i I ih =>
    rw [List.flatMap_cons, List.length_append] at hcap
    rw [List.foldlM_cons, add_pairs_inner prefs i _ ps (by omega), List.flatMap_cons]
    have := ih (ps ++ (List.range' (i + 1) (N - (i + 1))).filterMap
      (fun j => extractPair prefs (i, j))) (by rw [List.length_append]; omega)
    simpa using this

theorem filter_range_gt (i N : Nat) :
    (List.range N).filter (fun j => decide (i < j)) = List.range' (i + 1) (N - (i + 1)) := by
  induction N with
  | zero => simp
  | succ N ih =>
    rw [List.range_succ, List.filter_append, ih]
    by_cases h : i < N
    · have e : N + 1 - (i + 1) = (N - (i + 1)) + 1 := by omega
      rw [e, List.range'_concat]
      simp [h]
      omega
    · have e : N + 1 - (i + 1) = 0 := by omega
      have e2 : N - (i + 1) = 0 := by omega
      simp [h, e, e2]

theorem lexPairs_eq_flatMap (N : Nat) :
    lexPairs N = (List.range N).flatMap
      (fun i => (List.range' (i + 1) (N - (i + 1))).map (fun j => (i, j))) := by
  unfold lexPairs List.product
  rw [List.filter_flatMap]
  congr 1
  funext i
  rw [List.filter_map, ← filter_range_gt]
  rfl

theorem mem_lexPairs (N : Nat) (ij : Nat × Nat) : ij ∈ lexPairs N ↔ ij.1 < ij.2 ∧ ij.2 < N := by
  obtain ⟨i, j⟩ := ij
  unfold lexPairs
  simp only [List.mem_filter, List.pair_mem_product, List.mem_range, decide_eq_true_eq]
  constructor
  · rintro ⟨⟨_, h2⟩, h3⟩
    exact ⟨h3, h2⟩
  · rintro ⟨h1, h2⟩
    exact ⟨⟨by omega, h2⟩, h1⟩

theorem sum_range_sub (M N : Nat) (h : N ≤ M) :
    ((List.range N).map (fun i => M - (i + 1))).sum * 2 + N * (N + 1) = 2 * M * N := by
  induction N with
  | zero => simp
  | succ N ih =>
    rw [List.range_succ, List.map_append, List.sum_append]
    have ih' := ih (by omega)
    obtain ⟨d, rfl⟩ : ∃ d, M = N + 1 + d := ⟨M - (N + 1), by omega⟩
    have e : N + 1 + d - (N + 1) = d := by omega
    simp only [List.map_cons, List.map_nil, List.sum_cons, List.sum_nil, e] at ih' ⊢
    nlinarith [ih']

theorem lexPairs_length (N : Nat) : (lexPairs N).length = N * (N - 1) / 2 := by
  rw [lexPairs_eq_flatMap, List.length_flatMap]
  have h := sum_range_sub N N le_rfl
  have e : (List.map (List.length ∘ fun i => List.map (fun j => (i, j))
      (List.range' (i + 1) (N - (i + 1)))) (List.range N))
      = (List.range N).map (fun i => N - (i + 1)) := by
    apply List.map_congr_left
    intro i _
    simp
  rw [e]
  cases N with
  | zero => simp
  | succ n =>
    have h2 : (n + 1) * (n + 1 - 1) = ((List.range (n + 1)).map (fun i => n + 1 - (i + 1))).sum * 2 := by
      simp only [Nat.add_sub_cancel]
      nlinarith [h]
    rw [h2, Nat.mul_div_cancel _ (by decide : 0 < 2)]

theorem add_pairs_eq (N : Nat) (prefs : Prefs) (hN : N ≤ MAX) :
    add_pairs N prefs [] = some ((lexPairs N).filterMap (extractPair prefs)) := by
  have hlen : ((lexPairs N).filterMap (extractPair prefs)).length ≤ pairsCapacity := by
    refine le_trans (List.length_filterMap_le _ _) ?_
    rw [lexPairs_length]
    unfold pairsCapacity
    have hN' : N ≤ 9 := hN
    have : N * (N - 1) ≤ 9 * (9 - 1) := Nat.mul_le_mul hN' (by omega)
    exact Nat.div_le_div_right this
  have hflat : (lexPairs N).filterMap (extractPair prefs)
      = (List.range N).flatMap (fun i => (List.range' (i + 1) (N - (i + 1))).filterMap
          (fun j => extractPair prefs (i, j))) := by
    rw [lexPairs_eq_flatMap, List.filterMap_flatMap]
    congr 1
    funext i
    rw [List.filterMap_map]
    rfl
  unfold add_pairs
  rw [add_pairs_outer prefs N (List.range N) [] (by rw [← hflat]; simpa using hlen), ← hflat]
  simp

theorem extractPair_indices (prefs : Prefs) (L : List (Nat × Nat))
    (hL : ∀ ij ∈ L, ij.1 < ij.2) :
    (L.filterMap (extractPair prefs)).map pair.indices
      = L.filter (fun ij => decide (prefs ij.1 ij.2 ≠ prefs ij.2 ij.1)) := by
  induction L with
  | nil => rfl
  | cons ij L ih =>
    have hlt : ij.1 < ij.2 := hL ij (List.mem_cons_self _ _)
    have ih' := ih (fun x hx => hL x (List.mem_cons_of_mem _ hx))
    rw [List.filterMap_cons, List.filter_cons]
    by_cases h1 : prefs ij.1 ij.2 = prefs ij.2 ij.1
    · simp [extractPair, h1, ih']
    · by_cases h2 : prefs ij.2 ij.1 < prefs ij.1 ij.2
      · have hi : pair.indices ⟨ij.1, ij.2⟩ = ij := by
          simp [pair.indices, Nat.min_eq_left hlt.le, Nat.max_eq_right hlt.le]
        simp [extractPair, h1, h2, ih', hi]
      · have hi : pair.indices ⟨ij.2, ij.1⟩ = ij := by
          simp [pair.indices, Nat.min_eq_right hlt.le, Nat.max_eq_left hlt.le]
        simp [extractPair, h1, h2, ih', hi]

theorem extractPair_some (prefs : Prefs) (ij : Nat × Nat) (p : pair)
    (h : extractPair prefs ij = some p) :
    prefs p.loser p.winner < prefs p.winner p.loser ∧
      ((p.winner = ij.1 ∧ p.loser = ij.2) ∨ (p.winner = ij.2 ∧ p.loser = ij.1)) := by
  unfold extractPair at h
  by_cases h1 : prefs ij.1 ij.2 = prefs ij.2 ij.1
  · simp [h1] at h
  · by_cases h2 : prefs ij.2 ij.1 < prefs ij.1 ij.2
    · simp only [h1, h2, if_true, if_false, Option.some.injEq] at h
      subst h
      exact ⟨h2, Or.inl ⟨rfl, rfl⟩⟩
    · simp only [h1, h2, if_false, Option.some.injEq] at h
      subst h
      refine ⟨?_, Or.inr ⟨rfl, rfl⟩⟩
      exact lt_of_le_of_ne (not_lt.mp h2) h1

theorem mem_extracted (N : Nat) (prefs : Prefs) (p : pair) :
    p ∈ (lexPairs N).filterMap (extractPair prefs) ↔
      p.winner < N ∧ p.loser < N ∧ prefs p.loser p.winner < prefs p.winner p.loser := by
  rw [List.mem_filterMap]
  constructor
  · rintro ⟨ij, hij, he⟩
    rw [mem_lexPairs] at hij
    obtain ⟨hlt, hor⟩ := extractPair_some prefs ij p he
    rcases hor with ⟨h1, h2⟩ | ⟨h1, h2⟩
    · exact ⟨by omega, by omega, hlt⟩
    · exact ⟨by omega, by omega, hlt⟩
  · rintro ⟨hw, hl, hlt⟩
    have hne : p.winner ≠ p.loser := by
      intro e
      rw [e] at hlt
      exact lt_irrefl _ hlt
    rcases Nat.lt_or_gt_of_ne hne with h | h
    · refine ⟨(p.winner, p.loser), (mem_lexPairs _ _).mpr ⟨h, hl⟩, ?_⟩
      simp [extractPair, hlt, ne_of_gt hlt]
    · refine ⟨(p.loser, p.winner), (mem_lexPairs _ _).mpr ⟨h, hw⟩, ?_⟩
      simp [extractPair, hlt, ne_of_lt hlt, not_lt_of_lt hlt]

/-- C6: for `N ≤ MAX`, `add_pairs` started with `pair_count = 0` succeeds; the candidate
sets of the pairs it produces are, in order, the index pairs `i < j < N` in lexicographic
order whose two counts differ (one pair for each, none for a tie); the winner of every
produced pair has the strictly higher count; and `pair_count` ends as the number of index
pairs with unequal counts, at most `N (N - 1) / 2`. -/
theorem add_pairs_spec (N : Nat) (prefs : Prefs) (hN : N ≤ MAX) :
    ∃ out, add_pairs N prefs [] = some out ∧
      out.map pair.indices
        = (lexPairs N).filter (fun ij => decide (prefs ij.1 ij.2 ≠ prefs ij.2 ij.1)) ∧
      (∀ p ∈ out, prefs p.loser p.winner < prefs p.winner p.loser) ∧
      out.length = (lexPairs N).countP (fun ij => decide (prefs ij.1 ij.2 ≠ prefs ij.2 ij.1)) ∧
      out.length ≤ N * (N - 1) / 2 := by
  refine ⟨_, add_pairs_eq N prefs hN, ?_, ?_, ?_, ?_⟩
  · exact extractPair_indices prefs _ (fun ij h => ((mem_lexPairs N ij).mp h).1)
  · intro p hp
    exact ((mem_extracted N prefs p).mp hp).2.2
  · rw [List.countP_eq_length_filter,
      ← extractPair_indices prefs _ (fun ij h => ((mem_lexPairs N ij).mp h).1), List.length_map]
  · rw [← lexPairs_length]
    exact List.length_filterMap_le _ _

theorem add_pairs_spec_witness :
    3 ≤ MAX ∧ ∃ out, add_pairs 3 (tally 3 [[0, 1, 2], [1, 2, 0]]) [] = some out ∧
      out.map pair.indices
        = (lexPairs 3).filter (fun ij => decide (tally 3 [[0, 1, 2], [1, 2, 0]] ij.1 ij.2
            ≠ tally 3 [[0, 1, 2], [1, 2, 0]] ij.2 ij.1)) ∧
      (∀ p ∈ out, tally 3 [[0, 1, 2], [1, 2, 0]] p.loser p.winner
        < tally 3 [[0, 1, 2], [1, 2, 0]] p.winner p.loser) ∧
      out.length = (lexPairs 3).countP (fun ij => decide (tally 3 [[0, 1, 2], [1, 2, 0]] ij.1 ij.2
            ≠ tally 3 [[0, 1, 2], [1, 2, 0]] ij.2 ij.1)) ∧
      out.length ≤ 3 * (3 - 1) / 2 :=
  ⟨by decide, add_pairs_spec 3 (tally 3 [[0, 1, 2], [1, 2, 0]]) (by decide)⟩

/-! ## sort_pairs -/

theorem swapAt_cons {α : Type} (a : α) (l : List α) (k : Nat) :
    swapAt (a :: l) (k + 1) = a :: swapAt l k := by
  unfold swapAt
  simp only [List.getElem?_cons_succ]
  cases h1 : l[k]? <;> cases h2 : l[k + 1]? <;> simp [List.set_cons_succ]

theorem swapAt_append {α : Type} (pre : List α) (x y : α) (rest : List α) :
    swapAt (pre ++ x :: y :: rest) pre.length = pre ++ y :: x :: rest := by
  induction pre with
  | nil => simp [swapAt]
  | cons a pre ih =>
    rw [List.cons_append, List.length_cons, swapAt_cons, ih]
    rfl

theorem getD_append_here (pre : List Int) (x : Int) (rest : List Int) :
    (pre ++ x :: rest).getD pre.length 0 = x := by
  induction pre with
  | nil => simp
  | cons a pre ih => simpa using ih

theorem getD_append_next (pre : List Int) (x y : Int) (rest : List Int) :
    (pre ++ x :: y :: rest).getD (pre.length + 1) 0 = y := by
  induction pre with
  | nil => simp
  | cons a pre ih => simpa using ih

theorem bubbleStep_fold (prefs : Prefs) (rest pre : List pair) (c : pair) (n : Nat) :
    (List.range' pre.length rest.length).foldl bubbleStep
        ⟨strengthsOf prefs (pre ++ c :: rest), pre ++ c :: rest, n⟩
      = ⟨strengthsOf prefs (pre ++ carry (margin prefs) c rest),
          pre ++ carry (margin prefs) c rest, n + carrySwaps (margin prefs) c rest⟩ := by
  induction rest generalizing pre c n with
  | nil => simp [carry, carrySwaps]
  | cons b r ih =>
    rw [List.length_cons, List.range'_succ, List.foldl_cons]
    have hk : (strengthsOf prefs (pre ++ c :: b :: r)).getD pre.length 0 = margin prefs c := by
      have := getD_append_here (strengthsOf prefs pre) (margin prefs c) (strengthsOf prefs (b :: r))
      simpa [strengthsOf, margin] using this
    have hk1 : (strengthsOf prefs (pre ++ c :: b :: r)).getD (pre.length + 1) 0
        = margin prefs b := by
      have := getD_append_next (strengthsOf prefs pre) (margin prefs c) (margin prefs b)
        (strengthsOf prefs r)
      simpa [strengthsOf, margin] using this
    have hs : swapAt (strengthsOf prefs (pre ++ c :: b :: r)) pre.length
        = strengthsOf prefs ((pre ++ [b]) ++ c :: r) := by
      have := swapAt_append (strengthsOf prefs pre) (margin prefs c) (margin prefs b)
        (strengthsOf prefs r)
      simpa [strengthsOf, margin] using this
    have hp : swapAt (pre ++ c :: b :: r) pre.length = (pre ++ [b]) ++ c :: r := by
      rw [swapAt_append]
      simp
    by_cases hlt : margin prefs c < margin prefs b
    · have hstep : bubbleStep ⟨strengthsOf prefs (pre ++ c :: b :: r), pre ++ c :: b :: r, n⟩
          pre.length = ⟨strengthsOf prefs ((pre ++ [b]) ++ c :: r), (pre ++ [b]) ++ c :: r, n + 1⟩ := by
        unfold bubbleStep
        simp only [hk, hk1, hlt, if_true, hs, hp]
      rw [hstep]
      have := ih (pre ++ [b]) c (n + 1)
      simp only [List.length_append, List.length_singleton] at this
      rw [this]
      simp [carry, carrySwaps, hlt]
      omega
    · have hstep : bubbleStep ⟨strengthsOf prefs (pre ++ c :: b :: r), pre ++ c :: b :: r, n⟩
          pre.length = ⟨strengthsOf prefs ((pre ++ [c]) ++ b :: r), (pre ++ [c]) ++ b :: r, n⟩ := by
        unfold bubbleStep
        simp only [hk, hk1, hlt, if_false]
        simp
      rw [hstep]
      have := ih (pre ++ [c]) b n
      simp only [List.length_append, List.length_singleton] at this
      rw [this]
      simp [carry, carrySwaps, hlt]

theorem bubblePass_eq (prefs : Prefs) (ps : List pair) :
    bubblePass ps.length (strengthsOf prefs ps) ps
      = ⟨strengthsOf prefs (pass (margin prefs) ps), pass (margin prefs) ps,
          passSwaps (margin prefs) ps⟩ := by
  cases ps with
  | nil => rfl
  | cons c rest =>
    have := bubbleStep_fold prefs rest [] c 0
    simp only [List.length_nil, List.nil_append, Nat.zero_add] at this
    unfold bubblePass
    rw [List.length_cons, Nat.add_sub_cancel, List.range_eq_range', this]
    rfl

theorem carry_perm {α : Type} (key : α → Int) (c : α) (rest : List α) :
    List.Perm (carry key c rest) (c :: rest) := by
  induction rest generalizing c with
  | nil => simp [carry]
  | cons b r ih =>
    unfold carry
    split
    · exact ((ih c).cons b).trans (List.Perm.swap c b r)
    · exact (ih b).cons c

theorem pass_perm {α : Type} (key : α → Int) (l : List α) : List.Perm (pass key l) l := by
  cases l with
  | nil => exact List.Perm.refl _
  | cons c r => exact carry_perm key c r

theorem pass_length {α : Type} (key : α → Int) (l : List α) : (pass key l).length = l.length :=
  (pass_perm key l).length_eq

theorem carry_filter {α : Type} (key : α → Int) (m : Int) (c : α) (rest : List α) :
    (carry key c rest).filter (fun x => decide (key x = m))
      = (c :: rest).filter (fun x => decide (key x = m)) := by
  induction rest generalizing c with
  | nil => simp [carry]
  | cons b r ih =>
    unfold carry
    split
    · rename_i hlt
      rw [List.filter_cons, ih c]
      simp only [List.filter_cons]
      by_cases hb : key b = m
      · have hc : ¬ key c = m := by omega
        simp [hb, hc]
      · simp [hb]
    · rw [List.filter_cons, ih b]
      simp only [List.filter_cons]

theorem pass_filter {α : Type} (key : α → Int) (m : Int) (l : List α) :
    (pass key l).filter (fun x => decide (key x = m)) = l.filter (fun x => decide (key x = m)) := by
  cases l with
  | nil => rfl
  | cons c r => exact carry_filter key m c r

theorem carry_of_swaps_zero {α : Type} (key : α → Int) (c : α) (rest : List α)
    (h : carrySwaps key c rest = 0) : carry key c rest = c :: rest := by
  induction rest generalizing c with
  | nil => simp [carry]
  | cons b r ih =>
    unfold carrySwaps at h
    unfold carry
    split at h
    · omega
    · rename_i hlt
      rw [if_neg hlt, ih b h]

theorem pass_of_swaps_zero {α : Type} (key : α → Int) (l : List α)
    (h : passSwaps key l = 0) : pass key l = l := by
  cases l with
  | nil => rfl
  | cons c r => exact carry_of_swaps_zero key c r h

theorem carry_of_sorted {α : Type} (key : α → Int) (c : α) (rest : List α)
    (h : List.Pairwise (fun x y => key y ≤ key x) (c :: rest)) : carry key c rest = c :: rest := by
  induction rest generalizing c with
  | nil => simp [carry]
  | cons b r ih =>
    rw [List.pairwise_cons] at h
    have hcb : key b ≤ key c := h.1 b (List.mem_cons_self _ _)
    unfold carry
    rw [if_neg (not_lt.mpr hcb), ih b h.2]

theorem pass_of_sorted {α : Type} (key : α → Int) (l : List α)
    (h : List.Pairwise (fun x y => key y ≤ key x) l) : pass key l = l := by
  cases l with
  | nil => rfl
  | cons c r => exact carry_of_sorted key c r h

theorem carry_append {α : Type} (key : α → Int) (c : α) (xs ys : List α)
    (hge : ∀ x ∈ c :: xs, ∀ y ∈ ys, key y ≤ key x)
    (hys : List.Pairwise (fun x y => key y ≤ key x) ys) :
    carry key c (xs ++ ys) = carry key c xs ++ ys := by
  induction xs generalizing c with
  | nil =>
    rw [List.nil_append, carry_of_sorted]
    · simp [carry]
    · rw [List.pairwise_cons]
      exact ⟨fun y hy => hge c (List.mem_cons_self _ _) y hy, hys⟩
  | cons b r ih =>
    rw [List.cons_append]
    unfold carry
    split
    · rw [ih c (fun x hx y hy => hge x (by
        rcases List.mem_cons.mp hx with rfl | hx
        · exact List.mem_cons_self _ _
        · exact List.mem_cons_of_mem _ (List.mem_cons_of_mem _ hx)) y hy)]
      rfl
    · rw [ih b (fun x hx y hy => hge x (List.mem_cons_of_mem _ hx) y hy)]
      rfl

theorem carry_last {α : Type} (key : α → Int) (c : α) (xs : List α) :
    ∃ init m, carry key c xs = init ++ [m] ∧ init.length = xs.length ∧
      ∀ x ∈ c :: xs, key m ≤ key x := by
  induction xs generalizing c with
  | nil => exact ⟨[], c, by simp [carry]⟩
  | cons b r ih =>
    unfold carry
    split
    · rename_i hlt
      obtain ⟨init, m, he, hl, hm⟩ := ih c
      refine ⟨b :: init, m, by rw [he]; rfl, by simp [hl], ?_⟩
      intro x hx
      rcases List.mem_cons.mp hx with rfl | hx
      · exact hm _ (List.mem_cons_self _ _)
      · rcases List.mem_cons.mp hx with rfl | hx
        · have := hm c (List.mem_cons_self _ _)
          omega
        · exact hm x (List.mem_cons_of_mem _ hx)
    · rename_i hlt
      obtain ⟨init, m, he, hl, hm⟩ := ih b
      refine ⟨c :: init, m, by rw [he]; rfl, by simp [hl], ?_⟩
      intro x hx
      rcases List.mem_cons.mp hx with rfl | hx
      · have := hm b (List.mem_cons_self _ _)
        omega
      · exact hm x hx

theorem iterate_pass_sorted {α : Type} (key : α → Int) (n : Nat) (xs ys : List α)
    (hlen : xs.length ≤ n)
    (hge : ∀ x ∈ xs, ∀ y ∈ ys, key y ≤ key x)
    (hys : List.Pairwise (fun x y => key y ≤ key x) ys) :
    List.Pairwise (fun x y => key y ≤ key x) ((pass key)^[n] (xs ++ ys)) := by
  induction n generalizing xs ys with
  | zero =>
    have : xs = [] := List.length_eq_zero.mp (by omega)
    subst this
    simpa using hys
  | succ n ih =>
    rw [Function.iterate_succ_apply]
    cases xs with
    | nil =>
      rw [List.nil_append, pass_of_sorted key ys hys]
      have := ih [] ys (by simp) (by simp) hys
      simpa using this
    | cons c r =>
      have happ : pass key (c :: r ++ ys) = carry key c r ++ ys := by
        show carry key c (r ++ ys) = _
        exact carry_append key c r ys hge hys
      obtain ⟨init, m, he, hl, hm⟩ := carry_last key c r
      have hmem : ∀ x, x ∈ init ++ [m] → x ∈ c :: r := by
        intro x hx
        rw [← he] at hx
        exact (carry_perm key c r).subset hx
      rw [happ, he, List.append_assoc]
      refine ih init ([m] ++ ys) ?_ ?_ ?_
      · simp only [List.length_cons] at hlen
        omega
      · intro x hx y hy
        have hxin : x ∈ c :: r := hmem x (List.mem_append_left _ hx)
        rcases List.mem_append.mp hy with hy | hy
        · rw [List.mem_singleton] at hy
          subst hy
          exact hm x hxin
        · exact hge x hxin y hy
      · rw [List.singleton_append, List.pairwise_cons]
        exact ⟨fun y hy => hge m (hmem m (List.mem_append_right _ (List.mem_singleton_self m))) y hy,
          hys⟩

theorem bubbleLoop_eq_iterate (prefs : Prefs) (r : Nat) (ps : List pair) :
    bubbleLoop ps.length r (strengthsOf prefs ps) ps = (pass (margin prefs))^[r] ps := by
  induction r generalizing ps with
  | zero => rfl
  | succ r ih =>
    unfold bubbleLoop
    rw [bubblePass_eq]
    simp only
    split
    · rename_i h0
      rw [Function.iterate_succ_apply, pass_of_swaps_zero _ _ h0]
      exact (Function.iterate_fixed (pass_of_swaps_zero _ _ h0) r).symm
    · have := ih (pass (margin prefs) ps)
      rw [pass_length] at this
      rw [this, Function.iterate_succ_apply]

theorem sort_pairs_eq_iterate (prefs : Prefs) (ps : List pair) :
    sort_pairs prefs ps = (pass (margin prefs))^[ps.length] ps :=
  bubbleLoop_eq_iterate prefs ps.length ps

theorem iterate_pass_perm {α : Type} (key : α → Int) (n : Nat) (l : List α) :
    List.Perm ((pass key)^[n] l) l := by
  induction n generalizing l with
  | zero => exact List.Perm.refl _
  | succ n ih =>
    rw [Function.iterate_succ_apply]
    exact (ih _).trans (pass_perm key l)

theorem iterate_pass_filter {α : Type} (key : α → Int) (m : Int) (n : Nat) (l : List α) :
    ((pass key)^[n] l).filter (fun x => decide (key x = m))
      = l.filter (fun x => decide (key x = m)) := by
  induction n generalizing l with
  | zero => rfl
  | succ n ih =>
    rw [Function.iterate_succ_apply, ih, pass_filter]

theorem sort_pairs_pairwise (prefs : Prefs) (ps : List pair) :
    List.Pairwise (fun p q => margin prefs q ≤ margin prefs p) (sort_pairs prefs ps) := by
  rw [sort_pairs_eq_iterate]
  have := iterate_pass_sorted (margin prefs) ps.length ps [] le_rfl (by simp) List.Pairwise.nil
  simpa using this

theorem sort_pairs_perm (prefs : Prefs) (ps : List pair) :
    List.Perm (sort_pairs prefs ps) ps := by
  rw [sort_pairs_eq_iterate]
  exact iterate_pass_perm _ _ _

/-- C7: after `sort_pairs` the pairs array is a permutation of its input and is ordered by
non-increasing margin: every earlier pair has a margin at least that of every later one,
in particular `margin(pairs[k]) >= margin(pairs[k+1])` for all `k < pair_count - 1`. -/
theorem sort_pairs_sorted_perm (prefs : Prefs) (ps : List pair) :
    List.Perm (sort_pairs prefs ps) ps ∧
      (sort_pairs prefs ps).length = ps.length ∧
      List.Pairwise (fun p q => margin prefs q ≤ margin prefs p) (sort_pairs prefs ps) ∧
      ∀ k, (h : k + 1 < (sort_pairs prefs ps).length) →
        margin prefs ((sort_pairs prefs ps).get ⟨k + 1, h⟩)
          ≤ margin prefs ((sort_pairs prefs ps).get ⟨k, Nat.lt_of_succ_lt h⟩) := by
  refine ⟨sort_pairs_perm prefs ps, (sort_pairs_perm prefs ps).length_eq,
    sort_pairs_pairwise prefs ps, ?_⟩
  intro k h
  exact List.pairwise_iff_get.mp (sort_pairs_pairwise prefs ps) ⟨k, Nat.lt_of_succ_lt h⟩ ⟨k + 1, h⟩
    (by simp)

theorem orderedInsert_filter {α : Type} (key : α → Int) (m : Int) (a : α) (l : List α) :
    (l.orderedInsert (fun p q => key q ≤ key p) a).filter (fun x => decide (key x = m))
      = (a :: l).filter (fun x => decide (key x = m)) := by
  induction l with
  | nil => rfl
  | cons b l ih =>
    rw [List.orderedInsert]
    split
    · rfl
    · rename_i hlt
      rw [List.filter_cons, ih]
      simp only [List.filter_cons]
      by_cases hb : key b = m
      · have hc : ¬ key a = m := by omega
        simp [hb, hc]
      · simp [hb]

theorem insertionSort_filter {α : Type} (key : α → Int) (m : Int) (l : List α) :
    (l.insertionSort (fun p q => key q ≤ key p)).filter (fun x => decide (key x = m))
      = l.filter (fun x => decide (key x = m)) := by
  induction l with
  | nil => rfl
  | cons a l ih =>
    rw [List.insertionSort, orderedInsert_filter, List.filter_cons, ih, List.filter_cons]

theorem insertionSort_pairwise {α : Type} (key : α → Int) (l : List α) :
    List.Pairwise (fun p q => key q ≤ key p) (l.insertionSort (fun p q => key q ≤ key p)) := by
  haveI : IsTotal α (fun p q => key q ≤ key p) := ⟨fun a b => le_total (key b) (key a)⟩
  haveI : IsTrans α (fun p q => key q ≤ key p) := ⟨fun a b c h1 h2 => le_trans h2 h1⟩
  exact List.sorted_insertionSort (fun p q => key q ≤ key p) l

theorem eq_of_sorted_of_filter_eq {α : Type} (key : α → Int) (l1 l2 : List α)
    (h1 : List.Pairwise (fun p q => key q ≤ key p) l1)
    (h2 : List.Pairwise (fun p q => key q ≤ key p) l2)
    (hf : ∀ m, l1.filter (fun x => decide (key x = m)) = l2.filter (fun x => decide (key x = m))) :
    l1 = l2 := by
  induction l1 generalizing l2 with
  | nil =>
    cases l2 with
    | nil => rfl
    | cons b t =>
      have := hf (key b)
      simp at this
  | cons a t1 ih =>
    cases l2 with
    | nil =>
      have := hf (key a)
      simp at this
    | cons b t2 =>
      rw [List.pairwise_cons] at h1 h2
      have hab : key a ≤ key b := by
        have hmem : a ∈ (b :: t2).filter (fun x => decide (key x = key a)) := by
          rw [← hf (key a)]
          simp
        have hmem' : a ∈ b :: t2 := (List.mem_filter.mp hmem).1
        rcases List.mem_cons.mp hmem' with e | hin
        · rw [e]
        · exact h2.1 a hin
      have hba : key b ≤ key a := by
        have hmem : b ∈ (a :: t1).filter (fun x => decide (key x = key b)) := by
          rw [hf (key b)]
          simp
        have hmem' : b ∈ a :: t1 := (List.mem_filter.mp hmem).1
        rcases List.mem_cons.mp hmem' with e | hin
        · rw [e]
        · exact h1.1 b hin
      have hkey : key a = key b := le_antisymm hab hba
      have h0 := hf (key a)
      simp only [List.filter_cons, hkey, decide_True, if_true] at h0
      have hhead : a = b := (List.cons.inj h0).1
      subst hhead
      congr 1
      apply ih t2 h1.2 h2.2
      intro m
      have hm := hf m
      simp only [List.filter_cons] at hm
      by_cases hk : key a = m
      · simp only [hk, decide_True, if_true] at hm
        exact (List.cons.inj hm).2
      · simpa [hk] using hm

/-- C8: `sort_pairs` is stable: for every margin value the pairs having that margin appear
in the output in the same order as in the input, and so `sort_pairs` equals the stable
descending sort by margin. -/
theorem sort_pairs_stable (prefs : Prefs) (ps : List pair) :
    (∀ m : Int, (sort_pairs prefs ps).filter (fun p => decide (margin prefs p = m))
        = ps.filter (fun p => decide (margin prefs p = m))) ∧
      sort_pairs prefs ps = stableSortByMargin prefs ps := by
  have hst : ∀ m : Int, (sort_pairs prefs ps).filter (fun p => decide (margin prefs p = m))
      = ps.filter (fun p => decide (margin prefs p = m)) := by
    intro m
    rw [sort_pairs_eq_iterate]
    exact iterate_pass_filter _ m _ _
  refine ⟨hst, ?_⟩
  apply eq_of_sorted_of_filter_eq (margin prefs) _ _ (sort_pairs_pairwise prefs ps)
    (insertionSort_pairwise (margin prefs) ps)
  intro m
  rw [hst m]
  exact (insertionSort_filter (margin prefs) m ps).symm

/-! ## makes_circle -/

theorem circleScan_true (locked : Locked) (loser : Nat) (recurse : Nat → Option Bool)
    (L : List Nat) (h : circleScan locked loser recurse L = some true) :
    ∃ i ∈ L, locked loser i = true ∧ recurse i = some true := by
  induction L with
  | nil => simp [circleScan] at h
  | cons i rest ih =>
    unfold circleScan at h
    by_cases hl : locked loser i = true
    · rw [if_pos hl] at h
      cases hr : recurse i with
      | none => rw [hr] at h; simp at h
      | some b =>
        cases b with
        | true => exact ⟨i, List.mem_cons_self _ _, hl, hr⟩
        | false =>
          rw [hr] at h
          obtain ⟨x, hx, h1, h2⟩ := ih h
          exact ⟨x, List.mem_cons_of_mem _ hx, h1, h2⟩
    · rw [if_neg hl] at h
      obtain ⟨x, hx, h1, h2⟩ := ih h
      exact ⟨x, List.mem_cons_of_mem _ hx, h1, h2⟩

theorem circleScan_false (locked : Locked) (loser : Nat) (recurse : Nat → Option Bool)
    (L : List Nat) (h : circleScan locked loser recurse L = some false) :
    ∀ i ∈ L, locked loser i = true → recurse i = some false := by
  induction L with
  | nil => simp
  | cons i rest ih =>
    unfold circleScan at h
    intro x hx hlx
    by_cases hl : locked loser i = true
    · rw [if_pos hl] at h
      cases hr : recurse i with
      | none => rw [hr] at h; simp at h
      | some b =>
        cases b with
        | true => rw [hr] at h; simp at h
        | false =>
          rw [hr] at h
          rcases List.mem_cons.mp hx with rfl | hx
          · exact hr
          · exact ih h x hx hlx
    · rw [if_neg hl] at h
      rcases List.mem_cons.mp hx with rfl | hx
      · exact absurd hlx hl
      · exact ih h x hx hlx

theorem circleScan_some (locked : Locked) (loser : Nat) (recurse : Nat → Option Bool)
    (L : List Nat) (h : ∀ i ∈ L, locked loser i = true → ∃ b, recurse i = some b) :
    ∃ b, circleScan locked loser recurse L = some b := by
  induction L with
  | nil => exact ⟨false, rfl⟩
  | cons i rest ih =>
    have ih' := ih (fun x hx => h x (List.mem_cons_of_mem _ hx))
    unfold circleScan
    by_cases hl : locked loser i = true
    · rw [if_pos hl]
      obtain ⟨b, hb⟩ := h i (List.mem_cons_self _ _) hl
      rw [hb]
      cases b with
      | true => exact ⟨true, rfl⟩
      | false => exact ih'
    · rw [if_neg hl]
      exact ih'

theorem makes_circle_sound (locked : Locked) (N w : Nat) (fuel l : Nat)
    (h : makes_circle locked N w fuel l = some true) : Reach locked l w := by
  induction fuel generalizing l with
  | zero => simp [makes_circle] at h
  | succ fuel ih =>
    unfold makes_circle at h
    by_cases hlw : l = w
    · rw [hlw]
      exact Relation.ReflTransGen.refl
    · rw [if_neg hlw] at h
      obtain ⟨i, _, hli, hrec⟩ := circleScan_true _ _ _ _ h
      exact Relation.ReflTransGen.head hli (ih i hrec)

theorem makes_circle_complete (locked : Locked) (N w : Nat) (hov : OverCandidates locked N)
    (fuel l : Nat) (h : makes_circle locked N w fuel l = some false) : ¬ Reach locked l w := by
  induction fuel generalizing l with
  | zero => simp [makes_circle] at h
  | succ fuel ih =>
    unfold makes_circle at h
    by_cases hlw : l = w
    · rw [if_pos hlw] at h
      simp at h
    · rw [if_neg hlw] at h
      have hall := circleScan_false _ _ _ _ h
      intro hreach
      rcases Relation.ReflTransGen.cases_head hreach with e | ⟨i, hli, hiw⟩
      · exact hlw e
      · have hi : i < N := (hov l i hli).2
        exact ih i (hall i (List.mem_range.mpr hi) hli) hiw

theorem nodup_bounded_length (N : Nat) (l : List Nat) (hnd : l.Nodup) (hlt : ∀ x ∈ l, x < N) :
    l.length ≤ N := by
  have hsub : l ⊆ List.range N := fun x hx => List.mem_range.mpr (hlt x hx)
  have := (List.subperm_of_subset hnd hsub).length_le
  simpa using this

theorem makes_circle_returns_aux (locked : Locked) (N w : Nat) (hac : Acyclic locked)
    (fuel l : Nat) (stack : List Nat) (hnd : (l :: stack).Nodup)
    (hlt : ∀ x ∈ l :: stack, x < N)
    (hpath : ∀ x ∈ stack, Relation.TransGen (Edge locked) x l)
    (hfuel : N ≤ fuel + stack.length) :
    ∃ b, makes_circle locked N w fuel l = some b := by
  induction fuel generalizing l stack with
  | zero =>
    have := nodup_bounded_length N (l :: stack) hnd hlt
    simp only [List.length_cons] at this
    omega
  | succ fuel ih =>
    unfold makes_circle
    by_cases hlw : l = w
    · exact ⟨true, by rw [if_pos hlw]⟩
    · rw [if_neg hlw]
      apply circleScan_some
      intro i hi hli
      rw [List.mem_range] at hi
      have hedge : Edge locked l i := hli
      apply ih i (l :: stack)
      · rw [List.nodup_cons]
        refine ⟨?_, hnd⟩
        intro hmem
        rcases List.mem_cons.mp hmem with e | hin
        · rw [e] at hedge
          exact hac l (Relation.TransGen.single hedge)
        · exact hac i (Relation.TransGen.tail (hpath i hin) hedge)
      · intro x hx
        rcases List.mem_cons.mp hx with e | hin
        · rw [e]; exact hi
        · exact hlt x hin
      · intro x hx
        rcases List.mem_cons.mp hx with e | hin
        · rw [e]; exact Relation.TransGen.single hedge
        · exact Relation.TransGen.tail (hpath x hin) hedge
      · simp only [List.length_cons]
        omega

theorem makes_circle_returns (locked : Locked) (N w l fuel : Nat) (hac : Acyclic locked)
    (hl : l < N) (hfuel : N ≤ fuel) : ∃ b, makes_circle locked N w fuel l = some b :=
  makes_circle_returns_aux locked N w hac fuel l [] (by simp) (by simpa using hl) (by simp)
    (by simpa using hfuel)

theorem edge_setLocked (locked : Locked) (w l a b : Nat) :
    Edge (setLocked locked w l) a b ↔ Edge locked a b ∨ (a = w ∧ b = l) := by
  unfold Edge setLocked
  by_cases h : a = w ∧ b = l
  · simp [h]
  · simp [h]

theorem edge_setLocked_apply (locked : Locked) (w l a b : Nat) :
    setLocked locked w l a b = true ↔ locked a b = true ∨ (a = w ∧ b = l) :=
  edge_setLocked locked w l a b

theorem transGen_setLocked (locked : Locked) (w l a b : Nat)
    (h : Relation.TransGen (Edge (setLocked locked w l)) a b) :
    Relation.TransGen (Edge locked) a b ∨ (Reach locked a w ∧ Reach locked l b) := by
  induction h with
  | single hab =>
    rcases (edge_setLocked _ _ _ _ _).mp hab with h | ⟨rfl, rfl⟩
    · exact Or.inl (Relation.TransGen.single h)
    · exact Or.inr ⟨Relation.ReflTransGen.refl, Relation.ReflTransGen.refl⟩
  | tail _ hbc ih =>
    rcases (edge_setLocked _ _ _ _ _).mp hbc with h | ⟨rfl, rfl⟩
    · rcases ih with h1 | ⟨h1, h2⟩
      · exact Or.inl (Relation.TransGen.tail h1 h)
      · exact Or.inr ⟨h1, Relation.ReflTransGen.tail h2 h⟩
    · rcases ih with h1 | ⟨h1, _⟩
      · exact Or.inr ⟨h1.to_reflTransGen, Relation.ReflTransGen.refl⟩
      · exact Or.inr ⟨h1, Relation.ReflTransGen.refl⟩

theorem reach_mono (locked locked' : Locked) (hmono : ∀ a b, locked a b = true → locked' a b = true)
    (a b : Nat) (h : Reach locked a b) : Reach locked' a b :=
  Relation.ReflTransGen.mono (fun x y hxy => hmono x y hxy) h

theorem acyclic_setLocked_iff (locked : Locked) (w l : Nat) (hac : Acyclic locked) :
    Acyclic (setLocked locked w l) ↔ ¬ Reach locked l w := by
  constructor
  · intro hnew hreach
    have hreach' : Reach (setLocked locked w l) l w :=
      reach_mono locked _ (fun a b h => ((edge_setLocked locked w l a b).mpr (Or.inl h))) l w hreach
    have hedge : Edge (setLocked locked w l) w l :=
      (edge_setLocked locked w l w l).mpr (Or.inr ⟨rfl, rfl⟩)
    exact hnew w (Relation.TransGen.head' hedge hreach')
  · intro hno i hcyc
    rcases transGen_setLocked locked w l i i hcyc with h | ⟨h1, h2⟩
    · exact hac i h
    · exact hno (h2.trans h1)

theorem reach_noLocked (a b : Nat) (h : Reach noLocked a b) : a = b := by
  rcases Relation.ReflTransGen.cases_head h with e | ⟨i, hi, _⟩
  · exact e
  · simp [Edge, noLocked] at hi

theorem acyclic_noLocked : Acyclic noLocked := by
  intro i h
  rcases Relation.TransGen.head'_iff.mp h with ⟨c, hc, _⟩
  simp [Edge, noLocked] at hc

theorem overCandidates_noLocked (N : Nat) : OverCandidates noLocked N := by
  intro a b h
  simp [noLocked] at h

theorem overCandidates_setLocked (locked : Locked) (N w l : Nat) (hov : OverCandidates locked N)
    (hw : w < N) (hl : l < N) : OverCandidates (setLocked locked w l) N := by
  intro a b h
  rcases (edge_setLocked locked w l a b).mp h with h | ⟨rfl, rfl⟩
  · exact hov a b h
  · exact ⟨hw, hl⟩

theorem makes_circle_iff (locked : Locked) (N w l fuel : Nat) (hac : Acyclic locked)
    (hov : OverCandidates locked N) (hl : l < N) (hfuel : N ≤ fuel) :
    ∃ b, makes_circle locked N w fuel l = some b ∧ (b = true ↔ Reach locked l w) := by
  obtain ⟨b, hb⟩ := makes_circle_returns locked N w l fuel hac hl hfuel
  refine ⟨b, hb, ?_⟩
  cases b with
  | true => exact ⟨fun _ => makes_circle_sound locked N w fuel l hb, fun _ => rfl⟩
  | false =>
    exact ⟨fun h => by simp at h,
      fun h => absurd h (makes_circle_complete locked N w hov fuel l hb)⟩

/-- C10: for an acyclic locked matrix over `N` candidates, every `w` and every `l` below
`N`, `makes_circle(w, l)` returns (with a recursion depth of at most `N`), and it returns
true if and only if `w` is reachable from `l` by a possibly empty path of locked edges,
which is exactly when adding the edge `w -> l` would create a cycle. -/
theorem makes_circle_correct (locked : Locked) (N w l fuel : Nat) (hac : Acyclic locked)
    (hov : OverCandidates locked N) (hl : l < N) (hfuel : N ≤ fuel) :
    ∃ b, makes_circle locked N w fuel l = some b ∧
      (b = true ↔ Reach locked l w) ∧
      (b = true ↔ ¬ Acyclic (setLocked locked w l)) := by
  obtain ⟨b, hb, hiff⟩ := makes_circle_iff locked N w l fuel hac hov hl hfuel
  refine ⟨b, hb, hiff, ?_⟩
  rw [hiff, acyclic_setLocked_iff locked w l hac, not_not]

theorem makes_circle_correct_witness :
    Acyclic (setLocked noLocked 0 1) ∧ OverCandidates (setLocked noLocked 0 1) 2 ∧
      (0 : Nat) < 2 ∧ 2 ≤ 2 ∧
      ∃ b, makes_circle (setLocked noLocked 0 1) 2 1 2 0 = some b ∧
        (b = true ↔ Reach (setLocked noLocked 0 1) 0 1) ∧
        (b = true ↔ ¬ Acyclic (setLocked (setLocked noLocked 0 1) 1 0)) :=
  have hac : Acyclic (setLocked noLocked 0 1) :=
    (acyclic_setLocked_iff noLocked 0 1 acyclic_noLocked).mpr
      (fun h => absurd (reach_noLocked 1 0 h) (by decide))
  have hov : OverCandidates (setLocked noLocked 0 1) 2 :=
    overCandidates_setLocked noLocked 2 0 1 (overCandidates_noLocked 2) (by decide) (by decide)
  ⟨hac, hov, by decide, by decide,
    makes_circle_correct (setLocked noLocked 0 1) 2 1 0 2 hac hov (by decide) (by decide)⟩

/-! ## lock_pairs -/

theorem lock_pairs_cons (fuel N : Nat) (p : pair) (rest : List pair) (L : Locked) :
    lock_pairs fuel N L (p :: rest)
      = match makes_circle L N p.winner fuel p.loser with
        | none => none
        | some true => lock_pairs fuel N L rest
        | some false => lock_pairs fuel N (setLocked L p.winner p.loser) rest := by
  rw [lock_pairs]

theorem lock_pairs_append (fuel N : Nat) (xs ys : List pair) (L : Locked) :
    lock_pairs fuel N L (xs ++ ys)
      = (lock_pairs fuel N L xs).bind (fun L' => lock_pairs fuel N L' ys) := by
  induction xs generalizing L with
  | nil => rfl
  | cons p rest ih =>
    rw [List.cons_append, lock_pairs_cons, lock_pairs_cons]
    cases h : makes_circle L N p.winner fuel p.loser with
    | none => rfl
    | some b =>
      cases b with
      | true => exact ih L
      | false => exact ih _

theorem lock_pairs_invariant (fuel N : Nat) (hfuel : N ≤ fuel) (ps : List pair) (L : Locked)
    (hac : Acyclic L) (hov : OverCandidates L N)
    (hps : ∀ p ∈ ps, p.winner < N ∧ p.loser < N) :
    ∃ L', lock_pairs fuel N L ps = some L' ∧ Acyclic L' ∧ OverCandidates L' N ∧
      (∀ a b, L a b = true → L' a b = true) ∧
      (∀ a b, L' a b = true → L a b = true ∨ (⟨a, b⟩ : pair) ∈ ps) ∧
      (∀ p ∈ ps, L' p.winner p.loser = true ∨ Reach L' p.loser p.winner) := by
  induction ps generalizing L with
  | nil =>
    exact ⟨L, rfl, hac, hov, fun _ _ h => h, fun _ _ h => Or.inl h, by simp⟩
  | cons p rest ih =>
    have hp := hps p (List.mem_cons_self _ _)
    have hrest : ∀ q ∈ rest, q.winner < N ∧ q.loser < N :=
      fun q hq => hps q (List.mem_cons_of_mem _ hq)
    obtain ⟨b, hb, hiff⟩ := makes_circle_iff L N p.winner p.loser fuel hac hov hp.2 hfuel
    cases b with
    | true =>
      obtain ⟨L', hL', hac', hov', hmono, hsrc, hall⟩ := ih L hac hov hrest
      refine ⟨L', ?_, hac', hov', hmono, ?_, ?_⟩
      · rw [lock_pairs_cons, hb]
        exact hL'
      · intro a c h
        rcases hsrc a c h with h | h
        · exact Or.inl h
        · exact Or.inr (List.mem_cons_of_mem _ h)
      · intro q hq
        rcases List.mem_cons.mp hq with rfl | hq
        · exact Or.inr (reach_mono L L' hmono _ _ (hiff.mp rfl))
        · exact hall q hq
    | false =>
      have hno : ¬ Reach L p.loser p.winner := fun h => by simpa using hiff.mpr h
      have hac2 : Acyclic (setLocked L p.winner p.loser) :=
        (acyclic_setLocked_iff L _ _ hac).mpr hno
      have hov2 := overCandidates_setLocked L N _ _ hov hp.1 hp.2
      obtain ⟨L', hL', hac', hov', hmono, hsrc, hall⟩ := ih _ hac2 hov2 hrest
      refine ⟨L', ?_, hac', hov', ?_, ?_, ?_⟩
      · rw [lock_pairs_cons, hb]
        exact hL'
      · intro a c h
        exact hmono a c ((edge_setLocked L _ _ a c).mpr (Or.inl h))
      · intro a c h
        rcases hsrc a c h with h | h
        · rcases (edge_setLocked L _ _ a c).mp h with h | ⟨rfl, rfl⟩
          · exact Or.inl h
          · exact Or.inr (List.mem_cons_self _ _)
        · exact Or.inr (List.mem_cons_of_mem _ h)
      · intro q hq
        rcases List.mem_cons.mp hq with rfl | hq
        · exact Or.inl (hmono _ _ ((edge_setLocked L _ _ _ _).mpr (Or.inr ⟨rfl, rfl⟩)))
        · exact hall q hq

/-- C9: `lock_pairs` processes the pairs in order. For each pair `(w, l)`, with `before` the
locked graph after the earlier pairs, the graph after the pair is `before` with
`locked[w][l]` set when `w` is not reachable from `l` in `before`, and is `before` itself
when `w` is reachable from `l`; a pair that is locked stays locked and a pair that is
skipped is still not locked at the end of the pass. -/
theorem lock_pairs_greedy (fuel N : Nat) (L : Locked) (ps : List pair) (hfuel : N ≤ fuel)
    (hac : Acyclic L) (hov : OverCandidates L N)
    (hps : ∀ p ∈ ps, p.winner < N ∧ p.loser < N) :
    ∃ final, lock_pairs fuel N L ps = some final ∧
      ∀ pre p post, ps = pre ++ p :: post →
        ∃ before, lock_pairs fuel N L pre = some before ∧
          (¬ Reach before p.loser p.winner →
            lock_pairs fuel N L (pre ++ [p]) = some (setLocked before p.winner p.loser) ∧
              final p.winner p.loser = true) ∧
          (Reach before p.loser p.winner →
            lock_pairs fuel N L (pre ++ [p]) = some before ∧
              before p.winner p.loser = false ∧ final p.winner p.loser = false) := by
  obtain ⟨final, hfinal, hacf, _, _, _, _⟩ := lock_pairs_invariant fuel N hfuel ps L hac hov hps
  refine ⟨final, hfinal, ?_⟩
  intro pre p post hsplit
  have hpre : ∀ q ∈ pre, q.winner < N ∧ q.loser < N := by
    intro q hq
    exact hps q (by rw [hsplit]; exact List.mem_append_left _ hq)
  have hp : p.winner < N ∧ p.loser < N :=
    hps p (by rw [hsplit]; exact List.mem_append_right _ (List.mem_cons_self _ _))
  have hpost : ∀ q ∈ post, q.winner < N ∧ q.loser < N := by
    intro q hq
    exact hps q (by rw [hsplit]; exact List.mem_append_right _ (List.mem_cons_of_mem _ hq))
  obtain ⟨before, hbefore, hacb, hovb, _, _, _⟩ :=
    lock_pairs_invariant fuel N hfuel pre L hac hov hpre
  obtain ⟨b, hb, hiff⟩ :=
    makes_circle_iff before N p.winner p.loser fuel hacb hovb hp.2 hfuel
  have hone : lock_pairs fuel N L (pre ++ [p])
      = some (if b = true then before else setLocked before p.winner p.loser) := by
    rw [lock_pairs_append, hbefore]
    simp only [Option.bind, lock_pairs_cons, hb]
    cases b <;> rfl
  have hrest : lock_pairs fuel N (if b = true then before else setLocked before p.winner p.loser)
      post = some final := by
    have h2 : ps = (pre ++ [p]) ++ post := by rw [hsplit]; simp
    rw [h2, lock_pairs_append, hone] at hfinal
    exact hfinal
  refine ⟨before, hbefore, ?_, ?_⟩
  · intro hno
    have hbf : b = false := by
      cases b with
      | true => exact absurd (hiff.mp rfl) hno
      | false => rfl
    subst hbf
    simp only [if_false, Bool.false_eq_true] at hone hrest
    refine ⟨hone, ?_⟩
    obtain ⟨L', hL', _, _, hmono, _, _⟩ := lock_pairs_invariant fuel N hfuel post _
      ((acyclic_setLocked_iff before _ _ hacb).mpr hno)
      (overCandidates_setLocked before N _ _ hovb hp.1 hp.2) hpost
    rw [hrest] at hL'
    cases hL'
    exact hmono _ _ ((edge_setLocked before _ _ _ _).mpr (Or.inr ⟨rfl, rfl⟩))
  · intro hreach
    have hbt : b = true := hiff.mpr hreach
    subst hbt
    simp only [if_true] at hone hrest
    obtain ⟨L', hL', _, _, hmono, _, _⟩ :=
      lock_pairs_invariant fuel N hfuel post before hacb hovb hpost
    rw [hrest] at hL'
    cases hL'
    have hnot : ∀ M : Locked, Acyclic M → Reach M p.loser p.winner → M p.winner p.loser = false := by
      intro M hM hr
      cases hval : M p.winner p.loser with
      | false => rfl
      | true =>
        exact absurd (Relation.TransGen.head' (show Edge M p.winner p.loser from hval) hr)
          (hM p.winner)
    exact ⟨hone, hnot before hacb hreach,
      hnot final hacf (reach_mono before final hmono _ _ hreach)⟩

theorem lock_pairs_greedy_witness :
    3 ≤ 3 ∧ Acyclic noLocked ∧ OverCandidates noLocked 3 ∧
      (∀ p ∈ [(⟨0, 1⟩ : pair), ⟨1, 2⟩, ⟨2, 0⟩], p.winner < 3 ∧ p.loser < 3) ∧
      ∃ final, lock_pairs 3 3 noLocked [⟨0, 1⟩, ⟨1, 2⟩, ⟨2, 0⟩] = some final ∧
        ∀ pre p post, [(⟨0, 1⟩ : pair), ⟨1, 2⟩, ⟨2, 0⟩] = pre ++ p :: post →
          ∃ before, lock_pairs 3 3 noLocked pre = some before ∧
            (¬ Reach before p.loser p.winner →
              lock_pairs 3 3 noLocked (pre ++ [p]) = some (setLocked before p.winner p.loser) ∧
                final p.winner p.loser = true) ∧
            (Reach before p.loser p.winner →
              lock_pairs 3 3 noLocked (pre ++ [p]) = some before ∧
                before p.winner p.loser = false ∧ final p.winner p.loser = false) :=
  ⟨le_rfl, acyclic_noLocked, overCandidates_noLocked 3, by decide,
    lock_pairs_greedy 3 3 noLocked [⟨0, 1⟩, ⟨1, 2⟩, ⟨2, 0⟩] le_rfl acyclic_noLocked
      (overCandidates_noLocked 3) (by decide)⟩

/-! ## The pipeline -/

theorem run_election_spec (fuel N : Nat) (ballots : List (List Nat)) (hN : N ≤ MAX)
    (hfuel : N ≤ fuel) :
    ∃ e, run_election fuel N ballots = some e ∧
      e.preferences = tally N ballots ∧
      e.pairs = sort_pairs (tally N ballots)
        ((lexPairs N).filterMap (extractPair (tally N ballots))) ∧
      Acyclic e.locked ∧ OverCandidates e.locked N ∧
      (∀ a b, e.locked a b = true → (⟨a, b⟩ : pair) ∈ e.pairs) ∧
      (∀ p ∈ e.pairs, e.locked p.winner p.loser = true ∨ Reach e.locked p.loser p.winner) := by
  have hmem : ∀ p ∈ sort_pairs (tally N ballots)
      ((lexPairs N).filterMap (extractPair (tally N ballots))), p.winner < N ∧ p.loser < N := by
    intro p hp
    have := (mem_extracted N (tally N ballots) p).mp ((sort_pairs_perm _ _).subset hp)
    exact ⟨this.1, this.2.1⟩
  obtain ⟨L, hL, hac, hov, _, hsrc, hall⟩ := lock_pairs_invariant fuel N hfuel _ noLocked
    acyclic_noLocked (overCandidates_noLocked N) hmem
  refine ⟨⟨tally N ballots, sort_pairs (tally N ballots)
    ((lexPairs N).filterMap (extractPair (tally N ballots))), L⟩, ?_, rfl, rfl, hac, hov, ?_, hall⟩
  · unfold run_election
    simp only [add_pairs_eq N _ hN, hL]
  · intro a b h
    rcases hsrc a b h with h | h
    · simp [noLocked] at h
    · exact h

/-- C1: for every candidate count `1 ≤ N ≤ MAX` and every sequence of valid ballots, the
pipeline `record_preferences` on each ballot, `add_pairs`, `sort_pairs`, `lock_pairs` from
the all-false locked matrix runs to completion, and the locked relation it leaves has no
directed cycle; nor has the locked relation after any initial part of the ranked pairs. -/
theorem locked_graph_acyclic (fuel N : Nat) (ballots : List (List Nat)) (_h1 : 1 ≤ N)
    (hN : N ≤ MAX) (_hv : ∀ r ∈ ballots, ValidBallot N r) (hfuel : N ≤ fuel) :
    ∃ e, run_election fuel N ballots = some e ∧ Acyclic e.locked ∧
      ∀ pre post, e.pairs = pre ++ post →
        ∃ L, lock_pairs fuel N noLocked pre = some L ∧ Acyclic L := by
  obtain ⟨e, he, _, hpairs, hac, _⟩ := run_election_spec fuel N ballots hN hfuel
  refine ⟨e, he, hac, ?_⟩
  intro pre post hsplit
  have hmem : ∀ p ∈ pre, p.winner < N ∧ p.loser < N := by
    intro p hp
    have hin : p ∈ e.pairs := by rw [hsplit]; exact List.mem_append_left _ hp
    rw [hpairs] at hin
    have := (mem_extracted N (tally N ballots) p).mp ((sort_pairs_perm _ _).subset hin)
    exact ⟨this.1, this.2.1⟩
  obtain ⟨L, hL, hacL, _⟩ := lock_pairs_invariant fuel N hfuel pre noLocked
    acyclic_noLocked (overCandidates_noLocked N) hmem
  exact ⟨L, hL, hacL⟩

theorem validBallot_examples :
    ∀ r ∈ [[0, 1, 2], [1, 2, 0], [2, 0, 1]], ValidBallot 3 r := by
  intro r hr
  simp only [List.mem_cons, List.mem_singleton, List.not_mem_nil, or_false] at hr
  rcases hr with rfl | rfl | rfl <;> unfold ValidBallot <;> decide

theorem locked_graph_acyclic_witness :
    1 ≤ 3 ∧ 3 ≤ MAX ∧ (∀ r ∈ [[0, 1, 2], [1, 2, 0], [2, 0, 1]], ValidBallot 3 r) ∧ 3 ≤ 3 ∧
      ∃ e, run_election 3 3 [[0, 1, 2], [1, 2, 0], [2, 0, 1]] = some e ∧ Acyclic e.locked ∧
        ∀ pre post, e.pairs = pre ++ post →
          ∃ L, lock_pairs 3 3 noLocked pre = some L ∧ Acyclic L :=
  ⟨by decide, by decide, validBallot_examples, le_rfl,
    locked_graph_acyclic 3 3 [[0, 1, 2], [1, 2, 0], [2, 0, 1]] (by decide) (by decide)
      validBallot_examples le_rfl⟩

/-! ## Sources of the locked graph -/

theorem exists_source (L : Locked) (N : Nat) (hac : Acyclic L) (h1 : 1 ≤ N) :
    ∃ c, c < N ∧ ∀ i, i < N → L i c = false := by
  by_contra hcon
  push_neg at hcon
  let r : Fin N → Fin N → Prop := fun a b => Relation.TransGen (Edge L) a.val b.val
  haveI : IsTrans (Fin N) r := ⟨fun _ _ _ h1 h2 => Relation.TransGen.trans h1 h2⟩
  haveI : IsIrrefl (Fin N) r := ⟨fun a h => hac a.val h⟩
  have hwf : WellFounded r := Finite.wellFounded_of_trans_of_irrefl r
  obtain ⟨m, _, hm⟩ := hwf.has_min Set.univ ⟨⟨0, h1⟩, Set.mem_univ _⟩
  obtain ⟨i, hi, hedge⟩ := hcon m.val m.isLt
  have htrue : L i m.val = true := by
    cases h : L i m.val with
    | true => rfl
    | false => exact absurd h hedge
  exact hm ⟨i, hi⟩ (Set.mem_univ _) (Relation.TransGen.single htrue)

theorem reach_source (L : Locked) (N a c : Nat) (hov : OverCandidates L N)
    (hsrc : ∀ i, i < N → L i c = false) (h : Reach L a c) : a = c := by
  rcases Relation.ReflTransGen.cases_tail h with e | ⟨i, _, hic⟩
  · exact e.symm
  · have hi : i < N := (hov i c hic).1
    have : L i c = true := hic
    rw [hsrc i hi] at this
    exact absurd this (by decide)

/-- C3 (as amended): for every valid ballot set over `1 ≤ N ≤ MAX` candidates the final
locked graph has at least one candidate `c` in `0 .. N - 1` with no `i` such that
`locked[i][c]`; and when no two distinct candidates are tied in the tally, exactly one. -/
theorem source_exists_unique_without_ties (fuel N : Nat) (ballots : List (List Nat))
    (h1 : 1 ≤ N) (hN : N ≤ MAX) (_hv : ∀ r ∈ ballots, ValidBallot N r) (hfuel : N ≤ fuel) :
    ∃ e, run_election fuel N ballots = some e ∧
      (∃ c, c < N ∧ ∀ i, i < N → e.locked i c = false) ∧
      ((∀ i, i < N → ∀ j, j < N → i ≠ j → tally N ballots i j ≠ tally N ballots j i) →
        ∃! c, c < N ∧ ∀ i, i < N → e.locked i c = false) := by
  obtain ⟨e, he, _, hpairs, hac, hov, _, hall⟩ := run_election_spec fuel N ballots hN hfuel
  obtain ⟨c, hc, hsrc⟩ := exists_source e.locked N hac h1
  refine ⟨e, he, ⟨c, hc, hsrc⟩, ?_⟩
  intro hnotie
  refine ⟨c, ⟨hc, hsrc⟩, ?_⟩
  rintro d ⟨hd, hdsrc⟩
  by_contra hne
  have key : ∀ x y, x < N → y < N → (∀ i, i < N → e.locked i x = false) →
      (∀ i, i < N → e.locked i y = false) → x ≠ y →
      tally N ballots y x < tally N ballots x y → False := by
    intro x y hx hy hxs hys hxy hlt
    have hin : (⟨x, y⟩ : pair) ∈ e.pairs := by
      rw [hpairs]
      exact (sort_pairs_perm _ _).symm.subset ((mem_extracted N _ _).mpr ⟨hx, hy, hlt⟩)
    rcases hall _ hin with h | h
    · have h' : e.locked x y = true := h
      rw [hys x hx] at h'
      exact absurd h' (by decide)
    · exact hxy (reach_source e.locked N y x hov hxs h).symm
  rcases lt_or_gt_of_ne (hnotie d hd c hc hne) with hlt | hgt
  · exact key c d hc hd hsrc hdsrc (fun e => hne e.symm) hlt
  · exact key d c hd hc hdsrc hsrc hne hgt

theorem source_exists_unique_without_ties_witness :
    1 ≤ 3 ∧ 3 ≤ MAX ∧ (∀ r ∈ [[0, 1, 2], [1, 2, 0], [2, 0, 1]], ValidBallot 3 r) ∧ 3 ≤ 3 ∧
      (∀ i, i < 3 → ∀ j, j < 3 → i ≠ j →
        tally 3 [[0, 1, 2], [1, 2, 0], [2, 0, 1]] i j
          ≠ tally 3 [[0, 1, 2], [1, 2, 0], [2, 0, 1]] j i) ∧
      ∃ e, run_election 3 3 [[0, 1, 2], [1, 2, 0], [2, 0, 1]] = some e ∧
        (∃ c, c < 3 ∧ ∀ i, i < 3 → e.locked i c = false) ∧
        ((∀ i, i < 3 → ∀ j, j < 3 → i ≠ j →
            tally 3 [[0, 1, 2], [1, 2, 0], [2, 0, 1]] i j
              ≠ tally 3 [[0, 1, 2], [1, 2, 0], [2, 0, 1]] j i) →
          ∃! c, c < 3 ∧ ∀ i, i < 3 → e.locked i c = false) :=
  ⟨by decide, by decide, validBallot_examples, le_rfl, by decide,
    source_exists_unique_without_ties 3 3 [[0, 1, 2], [1, 2, 0], [2, 0, 1]] (by decide)
      (by decide) validBallot_examples le_rfl⟩

theorem validBallot_tie : ∀ r ∈ [[0, 1], [1, 0]], ValidBallot 2 r := by
  intro r hr
  simp only [List.mem_cons, List.mem_singleton, List.not_mem_nil, or_false] at hr
  rcases hr with rfl | rfl <;> unfold ValidBallot <;> decide

/-- C3 (counterexample): with two candidates and the valid ballots `[0, 1]` and `[1, 0]`
the tally is tied, no pair is produced, and both candidates are without incoming locked
edge, so the final locked graph does not have exactly one source. -/
theorem two_sources_on_tie :
    (∀ r ∈ [[0, 1], [1, 0]], ValidBallot 2 r) ∧
      ∃ e, run_election 2 2 [[0, 1], [1, 0]] = some e ∧
        ¬ ∃! c, c < 2 ∧ ∀ i, i < 2 → e.locked i c = false := by
  refine ⟨validBallot_tie, _, rfl, ?_⟩
  rintro ⟨c, _, huniq⟩
  have h0 : (0 : Nat) = c := huniq 0 ⟨by decide, by decide⟩
  have h1 : (1 : Nat) = c := huniq 1 ⟨by decide, by decide⟩
  omega

/-- C2 (failing input): with candidates `A`, `B` and the single valid ballot `[1, 0]`
the pipeline locks the edge `1 -> 0`, so candidate 1 is the only candidate without an
incoming locked edge, yet `print_winner`, whose loops run to `pair_count = 1`, reports
`candidates[0]`. -/
theorem print_winner_reports_defeated :
    ValidBallot 2 [1, 0] ∧
      (∃ e, run_election 2 2 [[1, 0]] = some e ∧ e.pairs.length = 1 ∧
        e.locked 1 0 = true ∧ (∀ i, i < 2 → e.locked i 1 = false)) ∧
      run_main 2 ["A", "B"] [[1, 0]] = some (.ok "A") := by
  refine ⟨by unfold ValidBallot; decide, ⟨_, rfl, rfl, rfl, by decide⟩, rfl⟩

/-- C4 (failing input): with a single candidate, whatever the ballots, the pipeline leaves
no pair (`pair_count = 0`) and `locked` all false, and `print_winner`, whose loops run to
`pair_count = 0`, never writes `winner`: it prints the uninitialised buffer instead of
`candidates[0]`. -/
theorem single_candidate_prints_uninitialised (fuel : Nat) (name : String)
    (ballots : List (List Nat)) :
    (∃ e, run_election fuel 1 ballots = some e ∧ e.pairs = [] ∧ e.locked = noLocked) ∧
      run_main fuel [name] ballots = some (.error .uninitialised) := by
  exact ⟨⟨_, rfl, rfl, rfl⟩, rfl⟩

/-! ## vote -/

theorem firstIndex_lt_iff (name : String) (l : List String) :
    firstIndex name l < l.length ↔ name ∈ l := by
  induction l with
  | nil => simp [firstIndex]
  | cons c rest ih =>
    unfold firstIndex
    by_cases h : c = name
    · simp [h]
    · have h' : ¬ name = c := fun e => h e.symm
      simp [h, h', ih]

theorem firstIndex_le (name : String) (l : List String) : firstIndex name l ≤ l.length := by
  induction l with
  | nil => simp [firstIndex]
  | cons c rest ih =>
    unfold firstIndex
    by_cases h : c = name
    · simp [h]
    · simp [h, ih]

theorem getElem?_firstIndex (name : String) (l : List String) (h : name ∈ l) :
    l[firstIndex name l]? = some name := by
  induction l with
  | nil => simp at h
  | cons c rest ih =>
    unfold firstIndex
    by_cases hc : c = name
    · simp [hc]
    · have hin : name ∈ rest := by
        rcases List.mem_cons.mp h with e | hin
        · exact absurd e.symm hc
        · exact hin
      simp [hc, ih hin]

theorem getElem?_ne_of_lt_firstIndex (name : String) (l : List String) (i : Nat)
    (h : i < firstIndex name l) : l[i]? ≠ some name := by
  induction l generalizing i with
  | nil => simp
  | cons c rest ih =>
    unfold firstIndex at h
    by_cases hc : c = name
    · simp [hc] at h
    · rw [if_neg hc] at h
      cases i with
      | zero => simpa using hc
      | succ i =>
        simp only [List.getElem?_cons_succ]
        exact ih i (by omega)

theorem voteScan_eq (cands : List String) (rank : Nat) (name : String) (ranks : List Nat)
    (m k : Nat) (h : k + m = cands.length) :
    voteScan cands rank name ranks (List.range' k m)
      = if name ∈ cands.drop k then (true, ranks.set rank (k + firstIndex name (cands.drop k)))
        else (false, ranks) := by
  induction m generalizing k with
  | zero =>
    have : cands.drop k = [] := List.drop_eq_nil_of_le (by omega)
    simp [this, voteScan]
  | succ m ih =>
    have hk : k < cands.length := by omega
    rw [List.range'_succ, List.drop_eq_getElem_cons hk]
    unfold voteScan
    rw [List.getElem?_eq_getElem hk]
    by_cases hc : cands[k] = name
    · simp [hc, firstIndex]
    · have hc' : ¬ name = cands[k] := fun e => hc e.symm
      have hne : ¬ (some cands[k] = some name) := fun e => hc (Option.some.inj e)
      rw [if_neg hne, ih (k + 1) (by omega)]
      simp only [List.mem_cons, hc', false_or, firstIndex, if_neg hc]
      have e : k + 1 + firstIndex name (List.drop (k + 1) cands)
          = k + (firstIndex name (List.drop (k + 1) cands) + 1) := by omega
      rw [e]

theorem vote_eq (cands : List String) (rank : Nat) (name : String) (ranks : List Nat) :
    vote cands rank name ranks
      = if name ∈ cands then (true, ranks.set rank (firstIndex name cands)) else (false, ranks) := by
  unfold vote
  rw [List.range_eq_range', voteScan_eq cands rank name ranks cands.length 0 (by omega)]
  simp

/-- C12: `vote(rank, name, ranks)` returns false exactly when `name` equals none of
`candidates[0 .. N - 1]`, and then `ranks` is unchanged; otherwise it returns true and
sets `ranks[rank]` to the index of the (first) candidate whose name is `name`, leaving
every other entry of `ranks` unchanged. In both cases no global, in particular not the
preferences matrix, is changed. -/
theorem vote_spec (g : Globals) (rank : Nat) (name : String) (ranks : List Nat) :
    (g.vote rank name ranks).2 = g ∧
      (g.vote rank name ranks).2.preferences = g.preferences ∧
      ((g.vote rank name ranks).1.1 = false ↔ name ∉ g.candidates) ∧
      (name ∉ g.candidates → (g.vote rank name ranks).1.2 = ranks) ∧
      (name ∈ g.candidates →
        ∃ i, i < g.candidate_count ∧ g.candidates[i]? = some name ∧
          (∀ k, k < i → g.candidates[k]? ≠ some name) ∧
          (g.vote rank name ranks).1.1 = true ∧
          (g.vote rank name ranks).1.2.length = ranks.length ∧
          (rank < ranks.length → (g.vote rank name ranks).1.2[rank]? = some i) ∧
          (∀ k, k ≠ rank → (g.vote rank name ranks).1.2[k]? = ranks[k]?)) := by
  refine ⟨rfl, rfl, ?_, ?_, ?_⟩
  · show (vote g.candidates rank name ranks).1 = false ↔ _
    rw [vote_eq]
    by_cases h : name ∈ g.candidates <;> simp [h]
  · intro h
    show (vote g.candidates rank name ranks).2 = ranks
    rw [vote_eq, if_neg h]
  · intro h
    have hv : (g.vote rank name ranks).1 = (true, ranks.set rank (firstIndex name g.candidates)) := by
      show vote g.candidates rank name ranks = _
      rw [vote_eq, if_pos h]
    refine ⟨firstIndex name g.candidates, (firstIndex_lt_iff _ _).mpr h,
      getElem?_firstIndex _ _ h, fun k hk => getElem?_ne_of_lt_firstIndex _ _ k hk, ?_, ?_, ?_, ?_⟩
    · rw [hv]
    · rw [hv]
      simp
    · intro hr
      rw [hv]
      simp [hr]
    · intro k hk
      rw [hv]
      simp [List.getElem?_set_ne (Ne.symm hk)]

/-! ## The ballot loop -/

theorem read_ranks_some (cands names : List String) (js : List Nat) (ranks : List Nat)
    (h : ∀ j ∈ js, names.getD j "" ∈ cands) :
    read_ranks cands names js ranks
      = some (js.foldl (fun r j => r.set j (firstIndex (names.getD j "") cands)) ranks) := by
  induction js generalizing ranks with
  | nil => rfl
  | cons j rest ih =>
    rw [read_ranks, vote_eq, if_pos (h j (List.mem_cons_self _ _)), List.foldl_cons]
    exact ih _ (fun x hx => h x (List.mem_cons_of_mem _ hx))

theorem read_ranks_none (cands names : List String) (js : List Nat) (ranks : List Nat)
    (h : ∃ j ∈ js, names.getD j "" ∉ cands) :
    read_ranks cands names js ranks = none := by
  induction js generalizing ranks with
  | nil => simp at h
  | cons j rest ih =>
    rw [read_ranks, vote_eq]
    by_cases hj : names.getD j "" ∈ cands
    · rw [if_pos hj]
      obtain ⟨x, hx, hxn⟩ := h
      rcases List.mem_cons.mp hx with e | hin
      · rw [e] at hxn
        exact absurd hj hxn
      · exact ih _ ⟨x, hin, hxn⟩
    · rw [if_neg hj]

theorem foldl_set_getElem? (f : Nat → Nat) (js : List Nat) (r : List Nat) (i : Nat) :
    (js.foldl (fun r j => r.set j (f j)) r)[i]?
      = if i ∈ js then (if i < r.length then some (f i) else none) else r[i]? := by
  induction js generalizing r with
  | nil => simp
  | cons j rest ih =>
    rw [List.foldl_cons, ih, List.length_set, List.getElem?_set]
    by_cases hi : i ∈ rest
    · have : i ∈ j :: rest := List.mem_cons_of_mem _ hi
      simp [hi]
    · by_cases hji : j = i
      · subst hji
        simp [hi]
      · have hij : ¬ i = j := fun e => hji e.symm
        simp [hi, hji, hij]

theorem foldl_set_range (names : List String) (cands : List String) (r : List Nat)
    (hlen : r.length = names.length) :
    (List.range names.length).foldl (fun r j => r.set j (firstIndex (names.getD j "") cands)) r
      = names.map (fun n => firstIndex n cands) := by
  apply List.ext_getElem?
  intro i
  rw [foldl_set_getElem? (fun j => firstIndex (names.getD j "") cands)]
  by_cases hi : i < names.length
  · have hg : names.getD i "" = names[i] := List.getD_eq_getElem _ _ hi
    simp [hi, hlen, hg, List.getElem?_eq_getElem hi]
  · have h1 : r[i]? = none := List.getElem?_eq_none (by omega)
    have h2 : names[i]? = none := List.getElem?_eq_none (by omega)
    simp [hi, h1, h2]

theorem getD_mem_iff (names cands : List String) :
    (∀ j ∈ List.range names.length, names.getD j "" ∈ cands) ↔ ∀ n ∈ names, n ∈ cands := by
  constructor
  · intro h n hn
    obtain ⟨i, hi, rfl⟩ := List.getElem_of_mem hn
    have := h i (List.mem_range.mpr hi)
    rwa [List.getD_eq_getElem _ _ hi] at this
  · intro h j hj
    rw [List.mem_range] at hj
    rw [List.getD_eq_getElem _ _ hj]
    exact h _ (List.getElem_mem _)

/-- C11 (as amended): a ballot whose names are all names of candidates is accepted by the
ballot loop whether or not a candidate is named at two ranks: the ranks become the
(first) indices of the names, and `record_preferences` adds to each `preferences[a][b]`
the number of pairs of positions `p < q` with `ranks[p] = a` and `ranks[q] = b`, changing
no other global. The ballot is rejected, before `record_preferences` is called, exactly
when one of its names is the name of no candidate. -/
theorem ballot_accepted_iff_names_known (g : Globals) (names : List String)
    (ranks0 : List Nat) (hn : names.length = g.candidate_count)
    (hr : ranks0.length = g.candidate_count) :
    ((∀ n ∈ names, n ∈ g.candidates) →
      ∃ g', g.ballot names ranks0 = some g' ∧
        g'.locked = g.locked ∧ g'.pairs = g.pairs ∧ g'.candidates = g.candidates ∧
        ∀ a b, g'.preferences a b = g.preferences a b +
          ((rankPairs g.candidate_count (names.map (fun n => firstIndex n g.candidates))).countP
            (fun xy => decide (xy = (a, b))) : Nat)) ∧
    ((∃ n ∈ names, n ∉ g.candidates) → g.ballot names ranks0 = none) := by
  constructor
  · intro hall
    have h1 := read_ranks_some g.candidates names (List.range names.length) ranks0
      ((getD_mem_iff names g.candidates).mpr hall)
    rw [foldl_set_range names g.candidates ranks0 (by rw [hr, hn])] at h1
    refine ⟨g.record_preferences (names.map (fun n => firstIndex n g.candidates)), ?_, rfl, rfl,
      rfl, ?_⟩
    · unfold Globals.ballot
      rw [← hn, h1]
    · intro a b
      exact record_preferences_apply _ _ _ a b
  · intro hex
    have h1 := read_ranks_none g.candidates names (List.range names.length) ranks0 (by
      by_contra hcon
      push_neg at hcon
      obtain ⟨n, hn1, hn2⟩ := hex
      exact hn2 ((getD_mem_iff names g.candidates).mp hcon n hn1))
    unfold Globals.ballot
    rw [← hn, h1]

theorem ballot_accepted_iff_names_known_witness :
    (["A", "A"] : List String).length
        = Globals.candidate_count ⟨noPreferences, noLocked, [], ["A", "B"]⟩ ∧
      ([0, 0] : List Nat).length
        = Globals.candidate_count ⟨noPreferences, noLocked, [], ["A", "B"]⟩ ∧
      (∀ n ∈ (["A", "A"] : List String),
          n ∈ Globals.candidates ⟨noPreferences, noLocked, [], ["A", "B"]⟩) ∧
      ∃ g', Globals.ballot ⟨noPreferences, noLocked, [], ["A", "B"]⟩ ["A", "A"] [0, 0] = some g' ∧
        g'.locked = noLocked ∧ g'.pairs = [] ∧ g'.candidates = ["A", "B"] ∧
        ∀ a b, g'.preferences a b = noPreferences a b +
          ((rankPairs (Globals.candidate_count ⟨noPreferences, noLocked, [], ["A", "B"]⟩)
            ((["A", "A"] : List String).map (fun n => firstIndex n ["A", "B"]))).countP
            (fun xy => decide (xy = (a, b))) : Nat) :=
  have hall : ∀ n ∈ (["A", "A"] : List String),
      n ∈ Globals.candidates ⟨noPreferences, noLocked, [], ["A", "B"]⟩ := by
    intro n hn
    simp only [List.mem_cons, List.mem_singleton, List.not_mem_nil, or_false, or_self] at hn
    subst hn
    exact List.mem_cons_self _ _
  ⟨rfl, rfl, hall,
    (ballot_accepted_iff_names_known ⟨noPreferences, noLocked, [], ["A", "B"]⟩ ["A", "A"] [0, 0]
      rfl rfl).1 hall⟩

/-- C11 (counterexample): with candidates `A`, `B` and a ballot naming `A` at both ranks,
`vote` returns true at both ranks, the ranks `[0, 0]` hold the candidate 0 twice, the
ballot is not rejected and `record_preferences` changes `preferences[0][0]` from 0 to 1. -/
theorem duplicate_ballot_is_recorded :
    (vote ["A", "B"] 0 "A" [0, 0]).1 = true ∧ (vote ["A", "B"] 1 "A" [0, 0]).1 = true ∧
      read_ranks ["A", "B"] ["A", "A"] (List.range 2) [0, 0] = some [0, 0] ∧
      ¬ ([0, 0] : List Nat).Nodup ∧
      ∃ g', Globals.ballot ⟨noPreferences, noLocked, [], ["A", "B"]⟩ ["A", "A"] [0, 0] = some g' ∧
        noPreferences 0 0 = 0 ∧ g'.preferences 0 0 = 1 := by
  refine ⟨rfl, rfl, rfl, by decide, _, rfl, rfl, rfl⟩

/-! ## Scenarios -/

/-- C13: scenario 1. With candidates `A`, `B`, `C` and the ballots 3 x `[0, 1, 2]`,
2 x `[1, 2, 0]` the tally is `pref[0][1] = 3`, `pref[1][0] = 2`, `pref[0][2] = 3`,
`pref[2][0] = 2`, `pref[1][2] = 5`, `pref[2][1] = 0`; `add_pairs` yields `(0,1), (0,2),
(1,2)`; `sort_pairs` yields `(1,2), (0,1), (0,2)`; `lock_pairs` locks all three edges;
and `print_winner` reports `A`. -/
theorem scenario_one (fuel : Nat) :
    tally 3 scenarioOneBallots 0 1 = 3 ∧ tally 3 scenarioOneBallots 1 0 = 2 ∧
      tally 3 scenarioOneBallots 0 2 = 3 ∧ tally 3 scenarioOneBallots 2 0 = 2 ∧
      tally 3 scenarioOneBallots 1 2 = 5 ∧ tally 3 scenarioOneBallots 2 1 = 0 ∧
      add_pairs 3 (tally 3 scenarioOneBallots) [] = some [⟨0, 1⟩, ⟨0, 2⟩, ⟨1, 2⟩] ∧
      sort_pairs (tally 3 scenarioOneBallots) [⟨0, 1⟩, ⟨0, 2⟩, ⟨1, 2⟩]
        = [⟨1, 2⟩, ⟨0, 1⟩, ⟨0, 2⟩] ∧
      lock_pairs (fuel + 3) 3 noLocked [⟨1, 2⟩, ⟨0, 1⟩, ⟨0, 2⟩]
        = some (setLocked (setLocked (setLocked noLocked 1 2) 0 1) 0 2) ∧
      (∀ a b, setLocked (setLocked (setLocked noLocked 1 2) 0 1) 0 2 a b = true ↔
        (a = 1 ∧ b = 2) ∨ (a = 0 ∧ b = 1) ∨ (a = 0 ∧ b = 2)) ∧
      print_winner (setLocked (setLocked (setLocked noLocked 1 2) 0 1) 0 2) ["A", "B", "C"] 3
        = .ok "A" ∧
      run_main (fuel + 3) ["A", "B", "C"] scenarioOneBallots = some (.ok "A") := by
  refine ⟨by decide, by decide, by decide, by decide, by decide, by decide, rfl, rfl, rfl, ?_,
    rfl, rfl⟩
  intro a b
  simp only [edge_setLocked_apply, noLocked]
  constructor
  · rintro (((h | h) | h) | h)
    · exact absurd h (by decide)
    · exact Or.inl h
    · exact Or.inr (Or.inl h)
    · exact Or.inr (Or.inr h)
  · rintro (h | h | h)
    · exact Or.inl (Or.inl (Or.inr h))
    · exact Or.inl (Or.inr h)
    · exact Or.inr h

/-- C14: scenario 2 (cycle skip). With 3 candidates and the ranked pairs `(0,1), (1,2),
(2,0)` on an all-false locked matrix, `lock_pairs` locks `0 -> 1` and `1 -> 2` and skips
`2 -> 0` because `makes_circle(2, 0)` is true; the final locked matrix has exactly the
edges `0 -> 1` and `1 -> 2`, and `print_winner` reports `A`. -/
theorem scenario_two (fuel : Nat) :
    makes_circle noLocked 3 0 (fuel + 3) 1 = some false ∧
      makes_circle (setLocked noLocked 0 1) 3 1 (fuel + 3) 2 = some false ∧
      makes_circle (setLocked (setLocked noLocked 0 1) 1 2) 3 2 (fuel + 3) 0 = some true ∧
      lock_pairs (fuel + 3) 3 noLocked [⟨0, 1⟩, ⟨1, 2⟩, ⟨2, 0⟩]
        = some (setLocked (setLocked noLocked 0 1) 1 2) ∧
      (∀ a b, setLocked (setLocked noLocked 0 1) 1 2 a b = true ↔
        (a = 0 ∧ b = 1) ∨ (a = 1 ∧ b = 2)) ∧
      print_winner (setLocked (setLocked noLocked 0 1) 1 2) ["A", "B", "C"] 3 = .ok "A" := by
  refine ⟨rfl, rfl, rfl, rfl, ?_, rfl⟩
  intro a b
  simp only [edge_setLocked_apply, noLocked]
  constructor
  · rintro ((h | h) | h)
    · exact absurd h (by decide)
    · exact Or.inl h
    · exact Or.inr h
  · rintro (h | h)
    · exact Or.inl (Or.inr h)
    · exact Or.inr h

/-! ## Margins -/

/-- C15: every pair `add_pairs` produces has a strictly positive margin: the strength
`preferences[w][l] - preferences[l][w]` that `sort_pairs` computes for it is positive, and
no pair of zero or negative margin appears in the ranked sequence. -/
theorem add_pairs_margin_positive (N : Nat) (prefs : Prefs) (hN : N ≤ MAX) :
    ∃ out, add_pairs N prefs [] = some out ∧
      (∀ p ∈ out, 0 < margin prefs p) ∧
      (∀ s ∈ strengthsOf prefs out, 0 < s) ∧
      (∀ p ∈ sort_pairs prefs out, 0 < margin prefs p) := by
  have hpos : ∀ p ∈ (lexPairs N).filterMap (extractPair prefs), 0 < margin prefs p := by
    intro p hp
    have := ((mem_extracted N prefs p).mp hp).2.2
    unfold margin
    omega
  refine ⟨_, add_pairs_eq N prefs hN, hpos, ?_, ?_⟩
  · intro s hs
    unfold strengthsOf at hs
    obtain ⟨p, hp, rfl⟩ := List.mem_map.mp hs
    exact hpos p hp
  · intro p hp
    exact hpos p ((sort_pairs_perm prefs _).subset hp)

theorem add_pairs_margin_positive_witness :
    3 ≤ MAX ∧ ∃ out, add_pairs 3 (tally 3 scenarioOneBallots) [] = some out ∧
      (∀ p ∈ out, 0 < margin (tally 3 scenarioOneBallots) p) ∧
      (∀ s ∈ strengthsOf (tally 3 scenarioOneBallots) out, 0 < s) ∧
      (∀ p ∈ sort_pairs (tally 3 scenarioOneBallots) out,
        0 < margin (tally 3 scenarioOneBallots) p) :=
  ⟨by decide, add_pairs_margin_positive 3 (tally 3 scenarioOneBallots) (by decide)⟩

/-! ## Termination of makes_circle -/

/-- C16: on an acyclic locked matrix over `N` candidates the recursion of `makes_circle`
ends although it keeps no visited set: a recursion depth of `N` suffices for every start
`l` below `N`. Consequently every call made by `lock_pairs` returns, the locked graph
being acyclic before each call, and `lock_pairs` runs to completion. -/
theorem makes_circle_terminates (fuel N : Nat) (L : Locked) (ps : List pair) (hfuel : N ≤ fuel)
    (hac : Acyclic L) (hov : OverCandidates L N)
    (hps : ∀ p ∈ ps, p.winner < N ∧ p.loser < N) :
    (∀ w l, l < N → ∃ b, makes_circle L N w fuel l = some b) ∧
      (∀ pre p post, ps = pre ++ p :: post →
        ∃ before, lock_pairs fuel N L pre = some before ∧ Acyclic before ∧
          ∃ b, makes_circle before N p.winner fuel p.loser = some b) ∧
      ∃ final, lock_pairs fuel N L ps = some final := by
  refine ⟨fun w l hl => makes_circle_returns L N w l fuel hac hl hfuel, ?_, ?_⟩
  · intro pre p post hsplit
    have hpre : ∀ q ∈ pre, q.winner < N ∧ q.loser < N := by
      intro q hq
      exact hps q (by rw [hsplit]; exact List.mem_append_left _ hq)
    have hp : p.winner < N ∧ p.loser < N :=
      hps p (by rw [hsplit]; exact List.mem_append_right _ (List.mem_cons_self _ _))
    obtain ⟨before, hbefore, hacb, _⟩ := lock_pairs_invariant fuel N hfuel pre L hac hov hpre
    exact ⟨before, hbefore, hacb, makes_circle_returns before N p.winner p.loser fuel hacb hp.2 hfuel⟩
  · obtain ⟨final, hfinal, _⟩ := lock_pairs_invariant fuel N hfuel ps L hac hov hps
    exact ⟨final, hfinal⟩

theorem makes_circle_terminates_witness :
    3 ≤ 3 ∧ Acyclic noLocked ∧ OverCandidates noLocked 3 ∧
      (∀ p ∈ [(⟨0, 1⟩ : pair), ⟨1, 2⟩, ⟨2, 0⟩], p.winner < 3 ∧ p.loser < 3) ∧
      (∀ w l, l < 3 → ∃ b, makes_circle noLocked 3 w 3 l = some b) ∧
      (∀ pre p post, [(⟨0, 1⟩ : pair), ⟨1, 2⟩, ⟨2, 0⟩] = pre ++ p :: post →
        ∃ before, lock_pairs 3 3 noLocked pre = some before ∧ Acyclic before ∧
          ∃ b, makes_circle before 3 p.winner 3 p.loser = some b) ∧
      ∃ final, lock_pairs 3 3 noLocked [⟨0, 1⟩, ⟨1, 2⟩, ⟨2, 0⟩] = some final :=
  ⟨le_rfl, acyclic_noLocked, overCandidates_noLocked 3, by decide,
    makes_circle_terminates 3 3 noLocked [⟨0, 1⟩, ⟨1, 2⟩, ⟨2, 0⟩] le_rfl acyclic_noLocked
      (overCandidates_noLocked 3) (by decide)⟩

/-! ## Bounds on the tally -/

theorem appearsBefore_asymm (r : List Nat) (hnd : r.Nodup) (a b : Nat)
    (h1 : appearsBefore r a b = true) (h2 : appearsBefore r b a = true) : False := by
  rw [appearsBefore_iff] at h1 h2
  obtain ⟨i, j, hij, hj, hia, hjb⟩ := h1
  obtain ⟨i', j', hij', hj', hib, hja⟩ := h2
  have e1 : i = j' := getD_inj_of_nodup hnd (by omega) hj' (hia.trans hja.symm)
  have e2 : j = i' := getD_inj_of_nodup hnd hj (by omega) (hjb.trans hib.symm)
  omega

theorem countP_add_le_length (ballots : List (List Nat)) (p q : List Nat → Bool)
    (h : ∀ r ∈ ballots, ¬ (p r = true ∧ q r = true)) :
    ballots.countP p + ballots.countP q ≤ ballots.length := by
  induction ballots with
  | nil => simp
  | cons r rest ih =>
    have ih' := ih (fun x hx => h x (List.mem_cons_of_mem _ hx))
    have hr := h r (List.mem_cons_self _ _)
    rw [List.countP_cons, List.countP_cons, List.length_cons]
    cases hp : p r <;> cases hq : q r
    · simp
      omega
    · simp
      omega
    · simp
      omega
    · exact absurd ⟨hp, hq⟩ hr

/-- C17: after recording any sequence of `V` valid ballots from the all-zero matrix,
`preferences[i][j] + preferences[j][i] <= V` for all `i != j`, and every diagonal entry
`preferences[i][i]` is 0. -/
theorem tally_pair_bound (N : Nat) (ballots : List (List Nat))
    (hv : ∀ r ∈ ballots, ValidBallot N r) :
    (∀ i j, i ≠ j → tally N ballots i j + tally N ballots j i ≤ (ballots.length : Int)) ∧
      ∀ i, tally N ballots i i = 0 := by
  have happ : ∀ a b, tally N ballots a b
      = (ballots.countP (fun r => appearsBefore r a b) : Nat) := by
    intro a b
    unfold tally
    rw [tally_from N ballots hv]
    simp [noPreferences]
  constructor
  · intro i j _
    rw [happ i j, happ j i]
    have := countP_add_le_length ballots (fun r => appearsBefore r i j)
      (fun r => appearsBefore r j i)
      (fun r hr h => appearsBefore_asymm r (validBallot_nodup (hv r hr)) i j h.1 h.2)
    exact_mod_cast this
  · intro i
    rw [happ i i]
    have hz : ballots.countP (fun r => appearsBefore r i i) = 0 := by
      rw [List.countP_eq_zero]
      intro r hr h
      exact appearsBefore_asymm r (validBallot_nodup (hv r hr)) i i h h
    rw [hz]
    rfl

theorem tally_pair_bound_witness :
    (∀ r ∈ [[0, 1, 2], [1, 2, 0], [2, 0, 1]], ValidBallot 3 r) ∧
      (∀ i j, i ≠ j → tally 3 [[0, 1, 2], [1, 2, 0], [2, 0, 1]] i j
        + tally 3 [[0, 1, 2], [1, 2, 0], [2, 0, 1]] j i
          ≤ (([[0, 1, 2], [1, 2, 0], [2, 0, 1]] : List (List Nat)).length : Int)) ∧
      ∀ i, tally 3 [[0, 1, 2], [1, 2, 0], [2, 0, 1]] i i = 0 :=
  ⟨validBallot_examples, tally_pair_bound 3 [[0, 1, 2], [1, 2, 0], [2, 0, 1]] validBallot_examples⟩

/-! ## Which globals are written -/

theorem lock_pairs_adds_only (fuel N : Nat) (ps : List pair) (L L' : Locked)
    (h : lock_pairs fuel N L ps = some L') :
    (∀ a b, L a b = true → L' a b = true) ∧
      (∀ a b, L' a b ≠ L a b → (⟨a, b⟩ : pair) ∈ ps) := by
  induction ps generalizing L with
  | nil =>
    rw [lock_pairs] at h
    cases h
    exact ⟨fun _ _ h => h, fun a b hne => absurd rfl hne⟩
  | cons p rest ih =>
    rw [lock_pairs_cons] at h
    cases hb : makes_circle L N p.winner fuel p.loser with
    | none => rw [hb] at h; simp at h
    | some b =>
      rw [hb] at h
      cases b with
      | true =>
        obtain ⟨h1, h2⟩ := ih L h
        exact ⟨h1, fun a b hne => List.mem_cons_of_mem _ (h2 a b hne)⟩
      | false =>
        obtain ⟨h1, h2⟩ := ih _ h
        refine ⟨fun a b hab => h1 a b ((edge_setLocked_apply L _ _ a b).mpr (Or.inl hab)), ?_⟩
        intro a b hne
        by_cases hstep : L' a b = setLocked L p.winner p.loser a b
        · have hchg : setLocked L p.winner p.loser a b ≠ L a b := by
            rw [← hstep]
            exact hne
          have hwl : a = p.winner ∧ b = p.loser := by
            by_contra hcon
            apply hchg
            unfold setLocked
            rw [if_neg hcon]
          have hp : (⟨a, b⟩ : pair) = p := by
            rw [hwl.1, hwl.2]
          rw [hp]
          exact List.mem_cons_self _ _
        · exact List.mem_cons_of_mem _ (h2 a b hstep)

/-- C18: `lock_pairs` only adds edges. For every initial locked matrix and pairs array,
every entry of `locked` that is true before `lock_pairs` is still true after it, and every
entry that changes is `locked[w][l]` for a pair `(w, l)` of the array (and `lock_pairs`
does run to completion from an acyclic matrix over the candidates). No other function
(`vote`, `record_preferences`, `add_pairs`, `sort_pairs`, `print_winner`) modifies
`locked`. -/
theorem lock_pairs_only_adds (fuel N : Nat) (L : Locked) (ps : List pair) (g : Globals)
    (rank : Nat) (name : String) (ranks : List Nat) :
    (∀ L', lock_pairs fuel N L ps = some L' →
        (∀ a b, L a b = true → L' a b = true) ∧
        (∀ a b, L' a b ≠ L a b → (⟨a, b⟩ : pair) ∈ ps)) ∧
      (N ≤ fuel → Acyclic L → OverCandidates L N → (∀ p ∈ ps, p.winner < N ∧ p.loser < N) →
        ∃ L', lock_pairs fuel N L ps = some L') ∧
      (∀ g', g.lock_pairs fuel = some g' →
        (∀ a b, g.locked a b = true → g'.locked a b = true) ∧
        (∀ a b, g'.locked a b ≠ g.locked a b → (⟨a, b⟩ : pair) ∈ g.pairs)) ∧
      (g.vote rank name ranks).2.locked = g.locked ∧
      (g.record_preferences ranks).locked = g.locked ∧
      (∀ g', g.add_pairs = some g' → g'.locked = g.locked) ∧
      g.sort_pairs.locked = g.locked ∧
      g.print_winner.2.locked = g.locked := by
  refine ⟨fun L' h => lock_pairs_adds_only fuel N ps L L' h, ?_, ?_, rfl, rfl, ?_, rfl, rfl⟩
  · intro hfuel hac hov hps
    obtain ⟨L', hL', _⟩ := lock_pairs_invariant fuel N hfuel ps L hac hov hps
    exact ⟨L', hL'⟩
  · intro g' hg'
    unfold Globals.lock_pairs at hg'
    cases hl : Tideman.lock_pairs fuel g.candidate_count g.locked g.pairs with
    | none => rw [hl] at hg'; simp at hg'
    | some L' =>
      rw [hl] at hg'
      simp only [Option.map_some', Option.some.injEq] at hg'
      subst hg'
      exact lock_pairs_adds_only fuel _ _ _ _ hl
  · intro g' hg'
    unfold Globals.add_pairs at hg'
    cases ha : Tideman.add_pairs g.candidate_count g.preferences g.pairs with
    | none => rw [ha] at hg'; simp at hg'
    | some ps' =>
      rw [ha] at hg'
      simp only [Option.map_some', Option.some.injEq] at hg'
      subst hg'
      rfl

/-! ## print_winner beyond the candidates -/

/-- C19 (failing input): with five candidates and the single valid ballot `[0, 1, 2, 3,
4]` the pipeline produces `pair_count = 10` pairs; `print_winner`, whose loops run to
`pair_count`, finds no `locked[j][0]` for `j < 9` and then reads `locked[9][0]`, outside
the `MAX x MAX` matrix. -/
theorem print_winner_reads_out_of_bounds :
    ValidBallot 5 [0, 1, 2, 3, 4] ∧ 5 ≤ MAX ∧
      (∃ e, run_election 5 5 [[0, 1, 2, 3, 4]] = some e ∧ e.pairs.length = 10 ∧
        sourceScan e.locked 0 (List.range 9) = .ok true ∧
        sourceScan e.locked 0 (List.range e.pairs.length) = .error .outOfBounds) ∧
      run_main 5 ["A", "B", "C", "D", "E"] [[0, 1, 2, 3, 4]] = some (.error .outOfBounds) := by
  refine ⟨by unfold ValidBallot; decide, by decide, ⟨_, rfl, rfl, rfl, rfl⟩, rfl⟩

/-! ## Condorcet winner -/

theorem condorcet_winner_unique_source (fuel N : Nat) (ballots : List (List Nat)) (c : Nat)
    (hN : N ≤ MAX) (hfuel : N ≤ fuel) (hc : c < N)
    (hcond : ∀ j, j < N → j ≠ c → tally N ballots j c < tally N ballots c j) :
    ∃ e, run_election fuel N ballots = some e ∧
      (∀ i, e.locked i c = false) ∧ ∀ j, j < N → j ≠ c → e.locked c j = true := by
  obtain ⟨e, he, _, hpairs, _, hov, hsrc, hall⟩ := run_election_spec fuel N ballots hN hfuel
  have hno : ∀ i, e.locked i c = false := by
    intro i
    cases hval : e.locked i c with
    | false => rfl
    | true =>
      have hin := hsrc i c hval
      rw [hpairs] at hin
      have hm := (mem_extracted N (tally N ballots) ⟨i, c⟩).mp ((sort_pairs_perm _ _).subset hin)
      have hlt : tally N ballots c i < tally N ballots i c := hm.2.2
      have hic : i ≠ c := by
        intro e'
        rw [e'] at hlt
        exact lt_irrefl _ hlt
      have := hcond i hm.1 hic
      omega
  refine ⟨e, he, hno, ?_⟩
  intro j hj hjc
  have hin : (⟨c, j⟩ : pair) ∈ e.pairs := by
    rw [hpairs]
    exact (sort_pairs_perm _ _).symm.subset
      ((mem_extracted N _ _).mpr ⟨hc, hj, hcond j hj hjc⟩)
  rcases hall _ hin with h | h
  · exact h
  · exact absurd (reach_source e.locked N j c hov (fun i _ => hno i) h) hjc

/-- C20 (failing input): with candidates `A`, `B`, `C` and the valid ballots `[2, 0, 1]`,
`[2, 1, 0]` candidate 2 beats each other candidate two to zero while 0 and 1 are tied, so
`pair_count = 2`; the locked graph has the edges `2 -> 0` and `2 -> 1` and candidate 2 is
its source, yet `print_winner`, whose loops run to `pair_count`, reports `candidates[0]`. -/
theorem condorcet_winner_not_reported :
    (∀ r ∈ [[2, 0, 1], [2, 1, 0]], ValidBallot 3 r) ∧
      (∀ j, j < 3 → j ≠ 2 →
        tally 3 [[2, 0, 1], [2, 1, 0]] j 2 < tally 3 [[2, 0, 1], [2, 1, 0]] 2 j) ∧
      (∃ e, run_election 3 3 [[2, 0, 1], [2, 1, 0]] = some e ∧ e.pairs.length = 2 ∧
        (∀ i, i < 3 → e.locked i 2 = false) ∧ e.locked 2 0 = true ∧ e.locked 2 1 = true) ∧
      run_main 3 ["A", "B", "C"] [[2, 0, 1], [2, 1, 0]] = some (.ok "A") := by
  refine ⟨?_, by decide, ⟨_, rfl, rfl, by decide, rfl, rfl⟩, rfl⟩
  intro r hr
  simp only [List.mem_cons, List.mem_singleton, List.not_mem_nil, or_false] at hr
  rcases hr with rfl | rfl <;> unfold ValidBallot <;> decide

end Tideman
